import Mathlib

/-!
Verification of the Java deobfuscation toolchain: a shallow embedding of the
descriptor codec and method/field resolution from `smali_enhanced_deobf.py`,
the global type index from `ts_java_parser.py`, and the AST rewrite engine
from `ast_deobfuscator.py`, together with theorems settling the specified
properties.  Source strings are modelled as `String`/`List Char` (byte
offsets as character offsets), Python dicts as insertion-ordered association
lists, and the externally produced tree-sitter syntax tree as an inductive
tree handed to the rewrite pass.
-/

namespace JavaDeobf

/-! ## Descriptor codec (`smali_enhanced_deobf.py`, `parse_jvm_type` /
`parse_method_descriptor`) -/

/-- `JVM_TYPE_MAP` lookup: primitive one-letter JVM type codes. -/
def primName : Char → Option String
  | 'V' => some "void"
  | 'Z' => some "boolean"
  | 'B' => some "byte"
  | 'C' => some "char"
  | 'S' => some "short"
  | 'I' => some "int"
  | 'J' => some "long"
  | 'F' => some "float"
  | 'D' => some "double"
  | _ => none

/-- `full_name.split('.')[-1]`: the suffix after the last `'.'`. -/
def lastComponent (l : List Char) : List Char :=
  (l.reverse.takeWhile (· ≠ '.')).reverse

/-- `parse_jvm_type` on the character list of the descriptor.  Mirrors the
Python branch order: empty, primitive map, array, `L...;` object, invalid. -/
def parseJvmTypeAux : List Char → String × Bool
  | [] => ("void", true)
  | c :: rest =>
    if rest = [] ∧ (primName c).isSome then ((primName c).getD "void", true)
    else if c = '[' then
      let p := parseJvmTypeAux rest
      if p.2 then (p.1 ++ "[]", true)
      else ("<invalid_array:" ++ String.mk (c :: rest) ++ ">", false)
    else if c = 'L' ∧ (c :: rest).getLast? = some ';' then
      let fn := rest.dropLast.map (fun ch => if ch = '/' then '.' else ch)
      if '.' ∈ fn then (String.mk (lastComponent fn), true)
      else (String.mk fn, true)
    else ("<invalid:" ++ String.mk (c :: rest) ++ ">", false)

/-- `parse_jvm_type(desc) -> (type name, ok)`. -/
def parse_jvm_type (desc : String) : String × Bool :=
  parseJvmTypeAux desc.data

/-- Split a character list at the first `';'`, the first part including the
`';'` — models `params_part.index(';', i)` plus the slice `[i:end+1]`. -/
def splitAfterSemi : List Char → Option (List Char × List Char)
  | [] => none
  | c :: rest =>
    if c = ';' then some ([';'], rest)
    else (splitAfterSemi rest).map (fun p => (c :: p.1, p.2))

theorem splitAfterSemi_length :
    ∀ l seg r, splitAfterSemi l = some (seg, r) → r.length < l.length := by
  intro l
  induction l with
  | nil => intro seg r h; simp [splitAfterSemi] at h
  | cons c rest ih =>
    intro seg r h
    by_cases hc : c = ';'
    · simp [splitAfterSemi, hc] at h
      simp [← h.2]
    · simp only [splitAfterSemi, if_neg hc, Option.map_eq_some'] at h
      obtain ⟨⟨s', r'⟩, hs, he⟩ := h
      have := ih s' r' hs
      cases he
      simp only [List.length_cons]
      omega

/-- `'[]' * array_depth`. -/
def brackets : Nat → String
  | 0 => ""
  | n + 1 => brackets n ++ "[]"

/-- The parameter-parsing `while` loop of `parse_method_descriptor`:
returns the parameter type list and the `parse_success` flag. -/
def parseParams (l : List Char) : List String × Bool :=
  match l with
  | [] => ([], true)
  | c :: rest =>
    match primName c with
    | some t =>
      let p := parseParams rest
      (t :: p.1, p.2)
    | none =>
      if hL : c = 'L' then
        match h : splitAfterSemi (c :: rest) with
        | some (seg, r) =>
          let q := parseJvmTypeAux seg
          let p := parseParams r
          (q.1 :: p.1, p.2 && q.2)
        | none => (["<truncated:" ++ String.mk (c :: rest) ++ ">"], false)
      else if hB : c = '[' then
        let depth := ((c :: rest).takeWhile (· = '[')).length
        match h2 : rest.dropWhile (· = '[') with
        | [] => (["<incomplete_array>"], false)
        | c2 :: rest2 =>
          if c2 = 'L' then
            match h3 : splitAfterSemi (c2 :: rest2) with
            | some (seg, r) =>
              let q := parseJvmTypeAux seg
              let p := parseParams r
              ((q.1 ++ brackets depth) :: p.1, p.2 && q.2)
            | none => ([], false)
          else
            match primName c2 with
            | some bt =>
              let p := parseParams rest2
              ((bt ++ brackets depth) :: p.1, p.2)
            | none =>
              let p := parseParams rest2
              (("<invalid_base:" ++ String.singleton c2 ++ ">" ++ brackets depth) :: p.1,
                false)
      else
        let p := parseParams rest
        (("<invalid_char:" ++ String.singleton c ++ ">") :: p.1, false)
  termination_by l.length
  decreasing_by
  all_goals first
  | (simp only [List.length_cons]; omega)
  | (have hsl := splitAfterSemi_length (c :: rest) seg r h
     simp only [List.length_cons] at hsl ⊢
     omega)
  | (have hd : (rest.dropWhile (· = '[')).length ≤ rest.length :=
       (List.dropWhile_sublist _).length_le
     rw [h2] at hd
     have hsl2 := splitAfterSemi_length (c2 :: rest2) seg r h3
     simp only [List.length_cons] at hd hsl2 ⊢
     omega)
  | (have hd : (rest.dropWhile (· = '[')).length ≤ rest.length :=
       (List.dropWhile_sublist _).length_le
     rw [h2] at hd
     simp only [List.length_cons] at hd ⊢
     omega)

/-- Split at the first `')'` (excluded from either part) — models
`descriptor.index(')')` with the slices `[1:paren_end]` / `[paren_end+1:]`. -/
def splitAtClose : List Char → Option (List Char × List Char)
  | [] => none
  | c :: rest =>
    if c = ')' then some ([], rest)
    else (splitAtClose rest).map (fun p => (c :: p.1, p.2))

/-- `parse_method_descriptor(descriptor) -> (param types, return type, ok)`. -/
def parse_method_descriptor (descriptor : String) :
    List String × String × Bool :=
  if descriptor.data.head? = some '(' then
    match splitAtClose descriptor.data.tail with
    | none => ([], "<invalid_descriptor>", false)
    | some (paramsPart, returnPart) =>
      let p := parseParams paramsPart
      let q := parseJvmTypeAux returnPart
      (p.1, q.1, p.2 && q.2)
  else ([], "void", false)

example : parse_jvm_type "I" = ("int", true) := by decide
example : parse_jvm_type "[I" = ("int[]", true) := by decide
example : parse_jvm_type "Ljava/lang/String;" = ("String", true) := by decide
example : parse_jvm_type "La;" = ("a", true) := by decide
example : parse_jvm_type "Labc" = ("<invalid:Labc>", false) := by decide
example : parse_jvm_type "Q" = ("<invalid:Q>", false) := by decide
unseal parseParams in
example : parse_method_descriptor "(ILjava/lang/String;)V" =
    (["int", "String"], "void", true) := by decide
example : parse_method_descriptor "I" = ([], "void", false) := by decide
example : parse_method_descriptor "(I" = ([], "<invalid_descriptor>", false) := by decide
unseal parseParams in
example : parse_method_descriptor "([[I)V" = (["int[][]"], "void", true) := by decide
unseal parseParams in
example : parse_method_descriptor "([LFoo)V" = ([], "void", false) := by decide

/-! ## Member records and the global type index (`ts_java_parser.py`,
`GlobalTypeIndex`).  Python member dicts become `MemberRecord` (absent keys
are `none`); Python dicts keyed by insertion order become association
lists. -/

/-- One member record of the rename table (`member_map` entries). -/
structure MemberRecord where
  obf : String
  orig : String
  is_method : Bool
  descriptor : Option String := none
  signature : Option String := none
  return_type : Option String := none
deriving DecidableEq

/-- The primitive return types excluded by `_build_indexes` when recording
method return types. -/
def primReturnTypes : List String :=
  ["void", "int", "long", "float", "double", "boolean", "byte", "char", "short"]

/-- `method_index[c][name]`: the method records of class `c` with obfuscated
name `name`, in insertion order (built by appending in `_build_indexes`). -/
def methodRecords (ms : List MemberRecord) (name : String) : List MemberRecord :=
  ms.filter (fun m => m.is_method && m.obf == name)

/-- `field_index[c][f]`: the original name of field `f` on class `c`;
`field_index[obf_class][m['obf']] = m['orig']` lets the last record win. -/
def field_index (mm : List (String × List MemberRecord)) (c f : String) :
    Option String :=
  (mm.lookup c).bind fun ms =>
    ((ms.filter (fun m => !m.is_method && m.obf == f)).getLast?).map (·.orig)

/-- `field_types[(c, f)]`: recorded only when the field's `return_type` is
non-empty; later records overwrite earlier ones. -/
def fieldTypeAt (ms : List MemberRecord) (f : String) : Option String :=
  ((ms.filter
      (fun m => !m.is_method && m.obf == f && (m.return_type.getD "") ≠ "")).getLast?).map
    (fun m => m.return_type.getD "")

/-- `method_returns[(c, n)]`: recorded only for non-primitive, non-empty
return types; later records overwrite earlier ones. -/
def method_returns (mm : List (String × List MemberRecord)) (c n : String) :
    Option String :=
  (mm.lookup c).bind fun ms =>
    ((ms.filter (fun m => m.is_method && m.obf == n &&
        (m.return_type.getD "") ≠ "" &&
        !(primReturnTypes.contains (m.return_type.getD "")))).getLast?).map
      (fun m => m.return_type.getD "")

/-- `GlobalTypeIndex.get_method_return_type`: a plain dictionary lookup on
`(obj_type, method_name)` — no inheritance-chain search. -/
def get_method_return_type (mm : List (String × List MemberRecord))
    (objType methodName : String) : Option String :=
  method_returns mm objType methodName

/-- `GlobalTypeIndex._count_params`: parameter count of a recorded textual
signature, `len(signature.strip('()').split(','))` with empty cases 0. -/
def count_params (sig : String) : Nat :=
  if sig = "" then 0
  else
    let isParen : Char → Bool := fun ch => ch = '(' || ch = ')'
    let inner := ((sig.data.dropWhile isParen).reverse.dropWhile isParen).reverse
    if inner = [] then 0 else inner.count ',' + 1

/-- `parent_map.get(current, [])`. -/
def getParents (pm : List (String × List String)) (c : String) : List String :=
  (pm.lookup c).getD []

/-- The per-class success test of `resolve_method`, i.e. the body of the BFS
loop once `method_name in self.method_index[current]`: try the argument-count
match first, otherwise fall back to the first record. -/
def methodFound (mm : List (String × List MemberRecord)) (methodName : String)
    (argCount : Int) (c : String) : Option String :=
  let recs := match mm.lookup c with
    | some ms => methodRecords ms methodName
    | none => []
  if recs.isEmpty then none
  else
    match (if 0 ≤ argCount then
        recs.find? (fun m => ((count_params (m.signature.getD "") : Int)) == argCount)
      else none) with
    | some m => some m.orig
    | none => recs.head?.map (·.orig)

/-- The common cycle-safe BFS skeleton of `resolve_field`, `resolve_method`
and `get_field_type`: pop, skip visited, test the current class with `found`
(returning immediately on success), otherwise enqueue the parents.  Fuel
makes the Python `while queue:` loop explicit; `none` means the fuel ran
out, `some r` that the loop exited with result `r`. -/
def bfsLoop (pm : List (String × List String)) (found : String → Option α) :
    Nat → List String → List String → Option (Option α)
  | 0, _, _ => none
  | _ + 1, [], _ => some none
  | fuel + 1, current :: queue, visited =>
    if current ∈ visited then bfsLoop pm found fuel queue visited
    else
      match found current with
      | some r => some (some r)
      | none => bfsLoop pm found fuel (queue ++ getParents pm current) (current :: visited)

/-- The distinct keys of an association list. -/
def keyList {β : Type} (l : List (String × β)) : List String :=
  (l.map Prod.fst).dedup

/-- Total weight of the not-yet-visited keys: each unvisited class can be
popped once and can enqueue its successors once. -/
def potential (keys : List String) (w : String → Nat) (visited : List String) : Nat :=
  ((keys.filter (fun k => decide (k ∉ visited))).map w).sum

theorem lookup_eq_none_of_not_mem {β : Type} (l : List (String × β)) (a : String)
    (h : a ∉ l.map Prod.fst) : l.lookup a = none := by
  induction l with
  | nil => rfl
  | cons p rest ih =>
    simp only [List.map_cons, List.mem_cons, not_or] at h
    have hne : (a == p.1) = false := by
      simp [h.1]
    simp [List.lookup, hne, ih h.2]

theorem mem_keys_of_lookup_eq_some {β : Type} (l : List (String × β)) (a : String)
    (b : β) (h : l.lookup a = some b) : a ∈ l.map Prod.fst := by
  induction l with
  | nil => simp [List.lookup] at h
  | cons p rest ih =>
    by_cases he : a = p.1
    · simp [he]
    · have hne : (a == p.1) = false := by simp [he]
      simp only [List.lookup, hne] at h
      simp [ih h]

theorem lookup_isSome_of_mem_keys {β : Type} (l : List (String × β)) (a : String)
    (h : a ∈ l.map Prod.fst) : (l.lookup a).isSome := by
  induction l with
  | nil => simp at h
  | cons p rest ih =>
    by_cases he : a = p.1
    · have hbe : (a == p.1) = true := by simp [he]
      simp [List.lookup, hbe]
    · have hne : (a == p.1) = false := by simp [he]
      simp only [List.map_cons, List.mem_cons] at h
      rcases h with h | h
      · exact absurd h he
      · simp [List.lookup, hne, ih h]

theorem potential_visit (keys : List String) (w : String → Nat) (a : String)
    (vis : List String) (hnd : keys.Nodup) (ha : a ∈ keys) (hv : a ∉ vis) :
    potential keys w vis = w a + potential keys w (a :: vis) := by
  induction keys with
  | nil => cases ha
  | cons b rest ih =>
    rcases List.nodup_cons.mp hnd with ⟨hb, hnd'⟩
    unfold potential
    rcases List.mem_cons.mp ha with rfl | ha'
    · rw [List.filter_cons_of_pos (by simpa using hv),
        List.filter_cons_of_neg (by simp)]
      have hrest : rest.filter (fun k => decide (k ∉ a :: vis)) =
          rest.filter (fun k => decide (k ∉ vis)) := by
        apply List.filter_congr
        intro x hx
        have hxa : x ≠ a := fun hh => hb (hh ▸ hx)
        simp [List.mem_cons, hxa]
      rw [hrest, List.map_cons, List.sum_cons]
    · have hba : b ≠ a := fun hh => hb (hh ▸ ha')
      have heq := ih hnd' ha'
      unfold potential at heq
      by_cases hbv : b ∈ vis
      · rw [List.filter_cons_of_neg (by simp [hbv]),
          List.filter_cons_of_neg (by simp [List.mem_cons, hbv])]
        exact heq
      · rw [List.filter_cons_of_pos (by simp [hbv]),
          List.filter_cons_of_pos (by simp [List.mem_cons, hba, hbv]),
          List.map_cons, List.sum_cons, List.map_cons, List.sum_cons]
        omega

theorem potential_skip (keys : List String) (w : String → Nat) (a : String)
    (vis : List String) (ha : a ∉ keys) :
    potential keys w (a :: vis) = potential keys w vis := by
  unfold potential
  congr 1
  apply congrArg
  apply List.filter_congr
  intro x hx
  have hxa : x ≠ a := fun hh => ha (hh ▸ hx)
  simp [List.mem_cons, hxa]

/-- Fuel sufficiency for the BFS skeleton: with any fuel exceeding
`|queue| + potential`, the loop finishes — on every parent map, cyclic and
self-referential ones included. -/
theorem bfsLoop_isSome (pm : List (String × List String)) {α : Type}
    (found : String → Option α) :
    ∀ (fuel : Nat) (queue visited : List String),
      queue.length +
        potential (keyList pm) (fun k => 1 + (getParents pm k).length) visited < fuel →
      (bfsLoop pm found fuel queue visited).isSome := by
  intro fuel
  induction fuel with
  | zero => intro q v h; omega
  | succ n ih =>
    intro q v h
    cases q with
    | nil => simp [bfsLoop]
    | cons current queue =>
      by_cases hv : current ∈ v
      · simp only [bfsLoop, if_pos hv]
        apply ih
        simp only [List.length_cons] at h
        omega
      · cases hf : found current with
        | some r => simp [bfsLoop, if_neg hv, hf]
        | none =>
          simp only [bfsLoop, if_neg hv, hf]
          apply ih
          by_cases hk : current ∈ keyList pm
          · have hvis := potential_visit (keyList pm)
              (fun k => 1 + (getParents pm k).length) current v
              (by simpa [keyList] using List.nodup_dedup (pm.map Prod.fst)) hk hv
            simp only at hvis
            simp only [List.length_append, List.length_cons] at h ⊢
            omega
          · have hskip := potential_skip (keyList pm)
              (fun k => 1 + (getParents pm k).length) current v hk
            have hpar : getParents pm current = [] := by
              have hnone : pm.lookup current = none := by
                apply lookup_eq_none_of_not_mem
                intro hmem
                exact hk (by simpa [keyList] using List.mem_dedup.mpr hmem)
              simp [getParents, hnone]
            simp only [hpar, List.append_nil, List.length_cons] at h ⊢
            omega

/-- The fuel that `bfsLoop_isSome` shows sufficient for an initial queue. -/
def bfsBound (pm : List (String × List String)) (q : List String) : Nat :=
  q.length + potential (keyList pm) (fun k => 1 + (getParents pm k).length) [] + 1

/-- `GlobalTypeIndex.resolve_field(obj_type, field_name)`. -/
def resolve_field (mm : List (String × List MemberRecord))
    (pm : List (String × List String)) (objType fieldName : String) : Option String :=
  if objType = "" then none
  else
    (bfsLoop pm (fun c => field_index mm c fieldName)
      (bfsBound pm [objType]) [objType] []).join

/-- `GlobalTypeIndex.resolve_method(obj_type, method_name, arg_count)`;
`arg_count = -1` means the call's argument count is unknown. -/
def resolve_method (mm : List (String × List MemberRecord))
    (pm : List (String × List String)) (objType methodName : String)
    (argCount : Int) : Option String :=
  if objType = "" then none
  else
    (bfsLoop pm (methodFound mm methodName argCount)
      (bfsBound pm [objType]) [objType] []).join

/-- `GlobalTypeIndex.get_field_type(obj_type, field_name)`: same BFS, but
looking up the recorded field type. -/
def get_field_type (mm : List (String × List MemberRecord))
    (pm : List (String × List String)) (objType fieldName : String) : Option String :=
  if objType = "" then none
  else
    (bfsLoop pm (fun c => (mm.lookup c).bind (fun ms => fieldTypeAt ms fieldName))
      (bfsBound pm [objType]) [objType] []).join

example :
    resolve_field [("a", [⟨"f", "count", false, none, none, none⟩])]
      [("b", ["a"]), ("a", ["b"])] "b" "f" = some "count" := by decide
example :
    resolve_field [] [("c", ["c"])] "c" "f" = none := by decide

/-! ## Smali structural facts and the enhanced mapper
(`smali_enhanced_deobf.py`, `SmaliEnhancedMapper`). -/

/-- A method record recovered from a disassembled `.smali` file. -/
structure SmaliMethod where
  name : String
  descriptor : String
  return_type : String
  param_types : List String
  is_static : Bool := false
  is_abstract : Bool := false
  is_constructor : Bool := false
  is_bridge : Bool := false
  is_synthetic : Bool := false
deriving DecidableEq

/-- A class record recovered from a disassembled `.smali` file. -/
structure SmaliClass where
  class_name : String
  super_class : String
  interfaces : List String
  methods : List SmaliMethod
  fields : List (String × String)
  is_interface : Bool := false
  is_abstract : Bool := false
deriving DecidableEq

/-- The loaded smali universe: `get_smali_class` becomes a lookup in the
association list of parsed classes (the on-disk `smali_output` directory). -/
def SmaliUniverse : Type := List (String × SmaliClass)

/-- The BFS loop of `SmaliEnhancedMapper.get_inheritance_chain`: skips
visited classes, `java.lang.Object`, and the `java.` namespace; records
every other visited class except the start; enqueues the super class (when
non-empty and not `java.lang.Object`) and all interfaces. -/
def chainLoop (smali : List (String × SmaliClass)) (start : String) :
    Nat → List String → List String → List String → Option (List String)
  | 0, _, _, _ => none
  | _ + 1, [], chain, _ => some chain
  | fuel + 1, current :: queue, chain, visited =>
    if current ∈ visited ∨ current = "java.lang.Object" ∨
        current.startsWith "java." then
      chainLoop smali start fuel queue chain visited
    else
      let chain' := if current = start then chain else chain ++ [current]
      let visited' := current :: visited
      match smali.lookup current with
      | none => chainLoop smali start fuel queue chain' visited'
      | some sc =>
        let q1 := if sc.super_class ≠ "" ∧ sc.super_class ≠ "java.lang.Object" then
            queue ++ [sc.super_class]
          else queue
        chainLoop smali start fuel (q1 ++ sc.interfaces) chain' visited'

/-- Weight of one class for the chain BFS: one pop plus at most one super
class and all interfaces. -/
def chainWeight (smali : List (String × SmaliClass)) (k : String) : Nat :=
  1 + (match smali.lookup k with
    | some sc => 1 + sc.interfaces.length
    | none => 0)

/-- Fuel sufficiency for the inheritance-chain BFS — on every smali
universe, including cyclic or self-referential inheritance facts. -/
theorem chainLoop_isSome (smali : List (String × SmaliClass)) (start : String) :
    ∀ (fuel : Nat) (queue chain visited : List String),
      queue.length + potential (keyList smali) (chainWeight smali) visited < fuel →
      (chainLoop smali start fuel queue chain visited).isSome := by
  intro fuel
  induction fuel with
  | zero => intro q c v h; omega
  | succ n ih =>
    intro q c v h
    cases q with
    | nil => simp [chainLoop]
    | cons current queue =>
      by_cases hskip : current ∈ v ∨ current = "java.lang.Object" ∨
          current.startsWith "java." = true
      · simp only [chainLoop, if_pos hskip]
        apply ih
        simp only [List.length_cons] at h
        omega
      · simp only [chainLoop, if_neg hskip]
        have hv : current ∉ v := fun hmem => hskip (Or.inl hmem)
        cases hl : smali.lookup current with
        | none =>
          apply ih
          have hk : current ∉ keyList smali := by
            intro hmem
            have hm : current ∈ smali.map Prod.fst := by
              simpa [keyList] using hmem
            have hs := lookup_isSome_of_mem_keys smali current hm
            rw [hl] at hs
            simp at hs
          have hsk := potential_skip (keyList smali) (chainWeight smali) current v hk
          simp only [List.length_cons] at h
          omega
        | some sc =>
          apply ih
          have hm : current ∈ smali.map Prod.fst :=
            mem_keys_of_lookup_eq_some smali current sc hl
          have hk : current ∈ keyList smali := by
            simpa [keyList] using List.mem_dedup.mpr hm
          have hvis := potential_visit (keyList smali) (chainWeight smali) current v
            (by simpa [keyList] using List.nodup_dedup (smali.map Prod.fst)) hk hv
          have hw : chainWeight smali current = 1 + (1 + sc.interfaces.length) := by
            unfold chainWeight
            rw [hl]
          rw [hw] at hvis
          simp only [List.length_cons] at h
          by_cases hsup : sc.super_class ≠ "" ∧ sc.super_class ≠ "java.lang.Object"
          · rw [if_pos hsup]
            simp only [List.length_append, List.length_cons, List.length_nil]
            omega
          · rw [if_neg hsup]
            simp only [List.length_append]
            omega

/-- Fuel that `chainLoop_isSome` shows sufficient for an initial queue. -/
def chainBound (smali : List (String × SmaliClass)) (q : List String) : Nat :=
  q.length + potential (keyList smali) (chainWeight smali) [] + 1

/-- `SmaliEnhancedMapper.get_inheritance_chain(obf_class)`: all ancestors
(super classes and interfaces) reachable from `obf_class`, excluding the
class itself, `java.lang.Object` and the `java.` namespace. -/
def get_inheritance_chain (smali : List (String × SmaliClass))
    (obf_class : String) : List String :=
  (chainLoop smali obf_class (chainBound smali [obf_class]) [obf_class] [] []).getD []

example :
    get_inheritance_chain
      [("a", ⟨"a", "b", [], [], [], false, false⟩),
       ("b", ⟨"b", "a", ["c"], [], [], false, false⟩)] "a" =
      ["b", "c"] := by decide
example :
    get_inheritance_chain [("a", ⟨"a", "a", [], [], [], false, false⟩)] "a" = [] := by
  decide

/-- Truthiness of `m.get('descriptor')` on a member record. -/
def descTruthy (m : MemberRecord) : Bool :=
  (m.descriptor.getD "") ≠ ""

/-- `SmaliEnhancedMapper._check_param_count_compatible(mapping, method)`. -/
def check_param_count_compatible (m : MemberRecord) (method : SmaliMethod) : Bool :=
  let sig := m.signature.getD ""
  if sig = "" then true
  else
    let sig' := sig.trim
    if sig'.startsWith "(" ∧ ')' ∈ sig'.data then
      let paramsPart := (sig'.data.drop 1).takeWhile (· ≠ ')')
      let expected := if (String.mk paramsPart).trim = "" then 0
        else paramsPart.count ',' + 1
      expected == method.param_types.length
    else true

/-- First pass at one ancestor of `_find_inherited_method_recursive`:
strict descriptor match against every declared method record. -/
def inheritedPass1 (ms : List MemberRecord) (d : String) : Option String :=
  (ms.find? (fun m => m.is_method && descTruthy m && m.descriptor == some d)).map
    (·.orig)

/-- Second pass at one ancestor: name match, accepted only when the ancestor
declares exactly one method with that obfuscated name and the parameter
count is compatible. -/
def inheritedPass2 (ms : List MemberRecord) (method : SmaliMethod) : Option String :=
  match ms.filter (fun m => m.is_method && m.obf == method.name) with
  | [m] => if check_param_count_compatible m method then some m.orig else none
  | _ => none

/-- The first two passes of `_find_inherited_method_recursive`, walked over
the inheritance chain: at each ancestor present in the member map, try the
strict descriptor match, then the unique-name match. -/
def findInheritedAB (mm : List (String × List MemberRecord)) :
    List String → SmaliMethod → Option String
  | [], _ => none
  | a :: rest, method =>
    match mm.lookup a with
    | none => findInheritedAB mm rest method
    | some ms =>
      match inheritedPass1 ms method.descriptor with
      | some o => some o
      | none =>
        match inheritedPass2 ms method with
        | some o => some o
        | none => findInheritedAB mm rest method

/-- Inner scan of the third pass: the first member record that has the
ancestor method's obfuscated name and whose recorded descriptor, when
present, equals the query descriptor. -/
def passCFind (ms : List MemberRecord) (d : String) (am : SmaliMethod) :
    Option String :=
  (ms.find? (fun m => m.is_method && m.obf == am.name &&
      (if descTruthy m then m.descriptor == some d else true))).map (·.orig)

/-- Third pass of `_find_inherited_method_recursive`: scan the ancestors'
smali method lists for a same-descriptor method, then map that method's name
through the ancestor's member records. -/
def findInheritedC (mm : List (String × List MemberRecord))
    (smali : List (String × SmaliClass)) (chain : List String)
    (method : SmaliMethod) : Option String :=
  chain.findSome? fun ancestor =>
    match smali.lookup ancestor with
    | none => none
    | some sc =>
      sc.methods.findSome? fun am =>
        if am.descriptor == method.descriptor then
          match mm.lookup ancestor with
          | some ms => passCFind ms method.descriptor am
          | none => none
        else none

/-- `SmaliEnhancedMapper._find_inherited_method_recursive(obf_class, method)`. -/
def find_inherited_method_recursive (mm : List (String × List MemberRecord))
    (smali : List (String × SmaliClass)) (obf_class : String)
    (method : SmaliMethod) : Option String :=
  let chain := get_inheritance_chain smali obf_class
  match findInheritedAB mm chain method with
  | some o => some o
  | none => findInheritedC mm smali chain method

/-- `SPECIAL_METHOD_PATTERNS`. -/
def special_method_patterns (n : String) : Option String :=
  if n = "<init>" then some "__constructor__"
  else if n = "<clinit>" then some "__static_init__"
  else none

/-- `RETURN_TYPE_METHOD_HINTS`. -/
def return_type_method_hints : String → List String
  | "boolean" => ["is", "has", "can", "should", "check"]
  | "int" => ["get", "count", "size", "index", "calculate"]
  | "long" => ["get", "getId", "getTime", "getTimestamp"]
  | "float" => ["get", "getX", "getY", "getWidth", "getHeight", "calculate"]
  | "double" => ["get", "calculate", "compute"]
  | "String" => ["get", "getName", "toString", "getDescription", "format"]
  | "void" => ["set", "update", "init", "reset", "clear", "add", "remove", "process"]
  | _ => []

/-- `COMMON_METHOD_PATTERNS`, keyed by (return type, parameter count). -/
def common_method_patterns : String × Nat → List String
  | ("void", 0) => ["init", "update", "reset", "clear", "dispose", "destroy"]
  | ("void", 1) => ["set", "add", "remove", "process", "handle", "apply"]
  | ("void", 2) => ["set", "move", "copy", "swap", "transfer"]
  | ("boolean", 0) => ["isValid", "isEnabled", "isEmpty", "hasContent", "isReady"]
  | ("boolean", 1) => ["equals", "contains", "matches", "accept", "canHandle"]
  | ("int", 0) => ["size", "count", "length", "hashCode", "getId"]
  | ("int", 1) => ["indexOf", "compare", "get", "computeHash"]
  | ("String", 0) => ["toString", "getName", "getDescription", "getValue"]
  | ("Object", 0) => ["get", "create", "clone", "copy"]
  | ("Object", 1) => ["get", "find", "create", "transform"]
  | _ => []

/-- `SmaliEnhancedMapper._apply_heuristics(method)`. -/
def apply_heuristics (method : SmaliMethod) : Option String :=
  if method.is_constructor || method.is_bridge || method.is_synthetic then none
  else
    match common_method_patterns (method.return_type, method.param_types.length) with
    | c :: _ => some c
    | [] =>
      match return_type_method_hints method.return_type with
      | hword :: _ => some hword
      | [] => none

/-- Step 1 of `infer_method_name`: current-class matching, with strict
signature matching as soon as the class declares overloads. -/
def inferStep1 (mm : List (String × List MemberRecord)) (obf_class : String)
    (method : SmaliMethod) : Option String :=
  match mm.lookup obf_class with
  | none => none
  | some ms =>
    match hsame : ms.filter (fun m => m.is_method && m.obf == method.name) with
    | [m] =>
      if descTruthy m then
        if m.descriptor == some method.descriptor then some m.orig else none
      else if check_param_count_compatible m method then some m.orig else none
    | _ :: _ :: _ =>
      ((ms.filter (fun m => m.is_method && m.obf == method.name)).find?
        (fun m => descTruthy m && m.descriptor == some method.descriptor)).map (·.orig)
    | [] => none

/-- Step 2.5 of `infer_method_name`: the Android SDK interface mapper is an
external collaborator (`android_interface_mapper`), abstracted here as an
optional matching function from declared interfaces and a descriptor to an
(interface, method name) pair. -/
def inferAndroid (smali : List (String × SmaliClass))
    (amap : Option (List String → String → Option (String × String)))
    (obf_class : String) (method : SmaliMethod) : Option String :=
  match amap with
  | none => none
  | some f =>
    match smali.lookup obf_class with
    | none => none
    | some sc =>
      if sc.interfaces.isEmpty then none
      else (f sc.interfaces method.descriptor).map (·.2)

/-- `SmaliEnhancedMapper.infer_method_name(obf_class, method)`: special
names, then current-class mapping, then recursive inheritance search, then
the Android interface mapper, then (when enabled) prefixed heuristics. -/
def infer_method_name (mm : List (String × List MemberRecord))
    (smali : List (String × SmaliClass))
    (amap : Option (List String → String → Option (String × String)))
    (enableHeuristics : Bool) (heuristicPre : String) (obf_class : String)
    (method : SmaliMethod) : Option String :=
  match special_method_patterns method.name with
  | some s => some s
  | none =>
    match inferStep1 mm obf_class method with
    | some o => some o
    | none =>
      match find_inherited_method_recursive mm smali obf_class method with
      | some o => some o
      | none =>
        match inferAndroid smali amap obf_class method with
        | some o => some o
        | none =>
          if enableHeuristics then
            match apply_heuristics method with
            | some hname => some (heuristicPre ++ hname)
            | none => none
          else none

/-! ## The AST rewrite engine (`ast_deobfuscator.py`).  The tree-sitter
syntax tree (an external collaborator) is modelled as an inductive tree:
each node has an identity, a kind (the tree-sitter node "type" string), a
byte range, and ordered children, each optionally tagged with its
tree-sitter field name.  Source text is a `List Char` with byte offsets as
character offsets. -/

/-- A tree-sitter syntax node. -/
inductive ASTNode : Type
  | node (id : Nat) (kind : String) (startB endB : Nat)
      (children : List (Option String × ASTNode)) : ASTNode

namespace ASTNode

def id : ASTNode → Nat
  | .node i _ _ _ _ => i

def kind : ASTNode → String
  | .node _ k _ _ _ => k

def startB : ASTNode → Nat
  | .node _ _ s _ _ => s

def endB : ASTNode → Nat
  | .node _ _ _ e _ => e

/-- The raw (field-tagged) child list. -/
def childrenRaw : ASTNode → List (Option String × ASTNode)
  | .node _ _ _ _ cs => cs

/-- `node.child_by_field_name(f)`. -/
def childByField (n : ASTNode) (f : String) : Option ASTNode :=
  (n.childrenRaw.find? (fun c => c.1 == some f)).map (·.2)

end ASTNode

/-- `self._node_text(node, code_bytes)`. -/
def nodeText (code : List Char) (n : ASTNode) : String :=
  String.mk ((code.drop n.startB).take (n.endB - n.startB))

theorem child_sizeOf_lt (i : Nat) (k : String) (s e : Nat)
    (cs : List (Option String × ASTNode)) (c : Option String × ASTNode)
    (h : c ∈ cs) : sizeOf c.2 < sizeOf (ASTNode.node i k s e cs) := by
  have h1 : sizeOf c < sizeOf cs := List.sizeOf_lt_of_mem h
  have h2 : sizeOf c.2 < sizeOf c := by
    obtain ⟨a, b⟩ := c
    simp only [Prod.mk.sizeOf_spec]
    omega
  have h3 : sizeOf cs < sizeOf (ASTNode.node i k s e cs) := by
    simp only [ASTNode.node.sizeOf_spec]
    omega
  omega

theorem childByField_sizeOf_lt {n : ASTNode} {f : String} {c : ASTNode}
    (h : n.childByField f = some c) : sizeOf c < sizeOf n := by
  cases n with
  | node i k s e cs =>
    unfold ASTNode.childByField at h
    cases hf : (ASTNode.childrenRaw (ASTNode.node i k s e cs)).find?
        (fun x => x.1 == some f) with
    | none => rw [hf] at h; simp at h
    | some p =>
      rw [hf] at h
      simp only [Option.map_eq_some'] at h
      obtain ⟨p', hp', hc⟩ := h
      cases hp'
      have hmem : p ∈ cs := List.mem_of_find?_eq_some hf
      subst hc
      exact child_sizeOf_lt i k s e cs p hmem

theorem find_children_sizeOf_lt {n : ASTNode} {p : Option String × ASTNode → Bool}
    {c : Option String × ASTNode}
    (h : n.childrenRaw.find? p = some c) : sizeOf c.2 < sizeOf n := by
  cases n with
  | node i k s e cs =>
    exact child_sizeOf_lt i k s e cs c (List.mem_of_find?_eq_some h)

mutual
/-- `count_nodes(node)` (all nodes, anonymous tokens included). -/
def countNodes : ASTNode → Nat
  | .node _ _ _ _ cs => 1 + countNodesL cs
def countNodesL : List (Option String × ASTNode) → Nat
  | [] => 0
  | c :: cs => countNodes c.2 + countNodesL cs
end

mutual
/-- `count_nodes(node, 'ERROR')`. -/
def countErrors : ASTNode → Nat
  | .node _ k _ _ cs => (if k = "ERROR" then 1 else 0) + countErrorsL cs
def countErrorsL : List (Option String × ASTNode) → Nat
  | [] => 0
  | c :: cs => countErrors c.2 + countErrorsL cs
end

/-- `get_error_ratio(root_node)`: fraction of `ERROR` nodes among all
nodes. -/
def get_error_ratio (root : ASTNode) : ℚ :=
  if 0 < countNodes root then (countErrors root : ℚ) / (countNodes root : ℚ)
  else 0

/-- One text edit operation (`TextEdit`). -/
structure TextEdit where
  start_byte : Nat
  end_byte : Nat
  new_text : String
  reason : String
deriving DecidableEq

/-- The edit collection (`TextEdits`): the ordered edit list plus the seen
`(start, end)` position keys. -/
structure TextEdits where
  edits : List TextEdit
  positions : List (Nat × Nat)
deriving DecidableEq

def TextEdits.empty : TextEdits := ⟨[], []⟩

/-- `TextEdits.add`: duplicate `(start, end)` keys are dropped — the first
writer wins. -/
def TextEdits.add (te : TextEdits) (s e : Nat) (text reason : String) : TextEdits :=
  if (s, e) ∈ te.positions then te
  else ⟨te.edits ++ [⟨s, e, text, reason⟩], (s, e) :: te.positions⟩

/-- Apply one edit to the buffer. -/
def applyEdit (buf : List Char) (ed : TextEdit) : List Char :=
  buf.take ed.start_byte ++ ed.new_text.data ++ buf.drop ed.end_byte

/-- `TextEdits.apply(source)`: sort the collected edits by descending start
offset (stably, via `self.edits.sort(..., reverse=True)` — an in-place sort
that keeps the list) and apply them backward.  Returns the rewritten text
together with the collection state after the call. -/
def TextEdits.apply (te : TextEdits) (source : List Char) : String × TextEdits :=
  if te.edits.isEmpty then (String.mk source, te)
  else
    let sorted := te.edits.mergeSort (fun a b => decide (b.start_byte ≤ a.start_byte))
    (String.mk (sorted.foldl applyEdit source), { te with edits := sorted })

/-- The index object passed to `ASTDeobfuscator` as `type_index` (a
`GlobalTypeIndex`): its member map and its inheritance map. -/
structure TypeIndexData where
  mm : List (String × List MemberRecord)
  pm : List (String × List String)

/-- The `ASTDeobfuscator` construction context: class map, member map and
optional global type index. -/
structure Deobfuscator where
  class_map : List (String × String)
  member_map : List (String × List MemberRecord)
  type_index : Option TypeIndexData

/-- `obf.split('.')[-1]`. -/
def shortName (s : String) : String :=
  String.mk (lastComponent s.data)

/-- `_short_class_candidates[short]`: the class-map entries whose obfuscated
short name is `short` and actually changes. -/
def shortClassCandidates (cm : List (String × String)) (short : String) :
    List (String × String) :=
  cm.filter (fun p => shortName p.1 == short && shortName p.1 != shortName p.2)

/-- `short_class_map[short]`: defined only when exactly one candidate
exists. -/
def short_class_map (cm : List (String × String)) (short : String) : Option String :=
  match shortClassCandidates cm short with
  | [p] => some (shortName p.2)
  | _ => none

/-- `self._get_type_name(type_node)`. -/
def getTypeName (code : List Char) (tn : ASTNode) : String :=
  if tn.kind == "type_identifier" then nodeText code tn
  else if tn.kind == "generic_type" then
    match tn.childrenRaw.find? (fun c => c.2.kind == "type_identifier") with
    | some c => nodeText code c.2
    | none => nodeText code tn
  else if tn.kind == "array_type" then
    match tn.childrenRaw.find? (fun c => c.2.kind == "type_identifier") with
    | some c => nodeText code c.2 ++ "[]"
    | none => nodeText code tn
  else nodeText code tn

/-- The Java type-introducing node kinds recognized by the declaration
handlers. -/
def typeNodeKinds : List String :=
  ["type_identifier", "generic_type", "array_type", "integral_type",
   "floating_point_type", "boolean_type"]

/-- `self._handle_local_var_decl`: record `name -> declared type` for every
declarator; produces no edit. -/
def handle_local_var_decl (code : List Char) (n : ASTNode)
    (vt : List (String × String)) : List (String × String) :=
  match n.childrenRaw.find? (fun c => typeNodeKinds.contains c.2.kind) with
  | none => vt
  | some tn =>
    let typeName := getTypeName code tn.2
    n.childrenRaw.foldl (fun acc c =>
      if c.2.kind == "variable_declarator" then
        match c.2.childByField "name" with
        | some nameNode => (nodeText code nameNode, typeName) :: acc
        | none => acc
      else acc) vt

/-- `self._handle_formal_param`: the last type-kind child and the last
identifier child win. -/
def handle_formal_param (code : List Char) (n : ASTNode)
    (vt : List (String × String)) : List (String × String) :=
  let tn := (n.childrenRaw.filter (fun c => typeNodeKinds.contains c.2.kind)).getLast?
  let nameN := (n.childrenRaw.filter (fun c => c.2.kind == "identifier")).getLast?
  match tn, nameN with
  | some t, some nm => (nodeText code nm.2, getTypeName code t.2) :: vt
  | _, _ => vt

/-- `self._count_arguments(args_node)`. -/
def count_arguments (argsNode : ASTNode) : Nat :=
  (argsNode.childrenRaw.filter
    (fun c => !(["(", ")", ","].contains c.2.kind))).length

/-- `self._resolve_expression_type(node, ...)`: the conservative static-type
inference over expression kinds. -/
def resolve_expression_type (D : Deobfuscator) (code : List Char)
    (vt : List (String × String)) (currentClass : String) :
    ASTNode → Option String
  | n =>
    if n.kind == "identifier" then vt.lookup (nodeText code n)
    else if n.kind == "this" then some currentClass
    else if n.kind == "field_access" then
      match hobj : n.childByField "object", n.childByField "field" with
      | some objN, some fieldN =>
        match resolve_expression_type D code vt currentClass objN with
        | none => none
        | some objType =>
          match D.type_index with
          | some ti => get_field_type ti.mm ti.pm objType (nodeText code fieldN)
          | none => none
      | _, _ => none
    else if n.kind == "method_invocation" then
      match n.childByField "name" with
      | none => none
      | some nameN =>
        let methodName := nodeText code nameN
        let objType := match hobj : n.childByField "object" with
          | some objN => resolve_expression_type D code vt currentClass objN
          | none => some currentClass
        match objType, D.type_index with
        | some t, some ti => get_method_return_type ti.mm t methodName
        | _, _ => none
    else if n.kind == "parenthesized_expression" then
      match hin : n.childrenRaw.find? (fun c => !(["(", ")"].contains c.2.kind)) with
      | some c => resolve_expression_type D code vt currentClass c.2
      | none => none
    else if n.kind == "cast_expression" then
      match n.childrenRaw.find?
          (fun c => ["type_identifier", "generic_type"].contains c.2.kind) with
      | some c => some (getTypeName code c.2)
      | none => none
    else none
  termination_by n => sizeOf n
  decreasing_by
  all_goals first
  | (exact childByField_sizeOf_lt hobj)
  | (exact find_children_sizeOf_lt hin)

/-- `self._resolve_method(obj_type, method_name, node, ...)`: the type index
first (inheritance-aware, with the call's argument count), then the direct
member-map fallback. -/
def resolveMethodD (D : Deobfuscator) (objType : Option String)
    (methodName : String) (n : ASTNode) : Option String :=
  match objType with
  | none => none
  | some t =>
    let viaIndex := match D.type_index with
      | some ti =>
        let argCount : Int := match n.childByField "arguments" with
          | some a => (count_arguments a : Int)
          | none => 0
        resolve_method ti.mm ti.pm t methodName argCount
      | none => none
    match viaIndex with
    | some o => some o
    | none =>
      match D.member_map.lookup t with
      | some ms => (ms.find? (fun m => m.is_method && m.obf == methodName)).map (·.orig)
      | none => none

/-- `self._resolve_field(obj_type, field_name)`. -/
def resolveFieldD (D : Deobfuscator) (objType : Option String)
    (fieldName : String) : Option String :=
  match objType with
  | none => none
  | some t =>
    let viaIndex := match D.type_index with
      | some ti => resolve_field ti.mm ti.pm t fieldName
      | none => none
    match viaIndex with
    | some o => some o
    | none =>
      match D.member_map.lookup t with
      | some ms => (ms.find? (fun m => !m.is_method && m.obf == fieldName)).map (·.orig)
      | none => none

/-- `self._handle_method_invocation`: emit an edit on the method-name token
when the resolved original name differs. -/
def handle_method_invocation (D : Deobfuscator) (code : List Char)
    (currentClass : String) (n : ASTNode) (vt : List (String × String))
    (edits : TextEdits) : TextEdits :=
  match n.childByField "name" with
  | none => edits
  | some nameNode =>
    let methodName := nodeText code nameNode
    let objType := match n.childByField "object" with
      | some objN => resolve_expression_type D code vt currentClass objN
      | none => some currentClass
    match resolveMethodD D objType methodName n with
    | some orig =>
      if orig ≠ methodName then
        edits.add nameNode.startB nameNode.endB orig
          ("method: " ++ objType.getD "None" ++ "." ++ methodName ++ " -> " ++ orig)
      else edits
    | none => edits

/-- `self._handle_field_access`: emit an edit on the field token when the
resolved original name differs.  (The parent-node inspection in the source
is dead code — every branch is `pass` — and is omitted.) -/
def handle_field_access (D : Deobfuscator) (code : List Char)
    (currentClass : String) (n : ASTNode) (vt : List (String × String))
    (edits : TextEdits) : TextEdits :=
  match n.childByField "field" with
  | none => edits
  | some fieldNode =>
    let fieldName := nodeText code fieldNode
    match n.childByField "object" with
    | none => edits
    | some objN =>
      let objType := resolve_expression_type D code vt currentClass objN
      match resolveFieldD D objType fieldName with
      | some orig =>
        if orig ≠ fieldName then
          edits.add fieldNode.startB fieldNode.endB orig
            ("field: " ++ objType.getD "None" ++ "." ++ fieldName ++ " -> " ++ orig)
        else edits
      | none => edits

/-- `self._handle_scoped_type_identifier`: rewrite the whole span when the
full dotted text is a known obfuscated class; otherwise try the trailing
short-name segment. -/
def handle_scoped_type_identifier (D : Deobfuscator) (code : List Char)
    (n : ASTNode) (edits : TextEdits) : TextEdits :=
  let fullType := nodeText code n
  match D.class_map.lookup fullType with
  | some nt =>
    edits.add n.startB n.endB nt ("scoped type: " ++ fullType ++ " -> " ++ nt)
  | none =>
    match n.childrenRaw.reverse.find? (fun c => c.2.kind == "type_identifier") with
    | some c =>
      let tn := nodeText code c.2
      match short_class_map D.class_map tn with
      | some o =>
        edits.add c.2.startB c.2.endB o
          ("scoped type suffix: " ++ tn ++ " -> " ++ o)
      | none => edits
    | none => edits

/-- `self._handle_type_identifier`: skip when covered by an enclosing
scoped-type node or by the class-declaration handler; otherwise look up the
short-name table. -/
def handle_type_identifier (D : Deobfuscator) (code : List Char)
    (parent : Option ASTNode) (n : ASTNode) (edits : TextEdits) : TextEdits :=
  let skip := match parent with
    | some p =>
      p.kind == "scoped_type_identifier" ||
      p.kind == "class_declaration" || p.kind == "interface_declaration" ||
      p.kind == "enum_declaration"
    | none => false
  if skip then edits
  else
    let tn := nodeText code n
    match short_class_map D.class_map tn with
    | some o => edits.add n.startB n.endB o ("type: " ++ tn ++ " -> " ++ o)
    | none => edits

/-- `self._handle_superclass`. -/
def handle_superclass (D : Deobfuscator) (code : List Char) (n : ASTNode)
    (edits : TextEdits) : TextEdits :=
  n.childrenRaw.foldl (fun acc c =>
    if c.2.kind == "type_identifier" then
      let tn := nodeText code c.2
      match short_class_map D.class_map tn with
      | some o => acc.add c.2.startB c.2.endB o ("extends: " ++ tn ++ " -> " ++ o)
      | none => acc
    else if c.2.kind == "scoped_type_identifier" then
      handle_scoped_type_identifier D code c.2 acc
    else acc) edits

mutual
/-- `self._handle_interfaces`: walk the interface list, recursing into
nested `type_list` wrappers. -/
def handle_interfaces (D : Deobfuscator) (code : List Char) :
    ASTNode → TextEdits → TextEdits
  | .node _ _ _ _ cs, edits => interfacesChildren D code cs edits
def interfacesChildren (D : Deobfuscator) (code : List Char) :
    List (Option String × ASTNode) → TextEdits → TextEdits
  | [], edits => edits
  | c :: cs, edits =>
    let edits' :=
      if c.2.kind == "type_identifier" then
        let tn := nodeText code c.2
        match short_class_map D.class_map tn with
        | some o => edits.add c.2.startB c.2.endB o ("implements: " ++ tn ++ " -> " ++ o)
        | none => edits
      else if c.2.kind == "type_list" then
        handle_interfaces D code c.2 edits
      else if c.2.kind == "scoped_type_identifier" then
        handle_scoped_type_identifier D code c.2 edits
      else edits
    interfacesChildren D code cs edits'
end

/-- `self._handle_class_declaration`: rename the declared class name using
the current-class identity first, then the collision-free short-name table;
then process the extends/implements clauses. -/
def handle_class_declaration (D : Deobfuscator) (code : List Char)
    (currentClass : String) (n : ASTNode) (edits : TextEdits) : TextEdits :=
  match n.childByField "name" with
  | none => edits
  | some nameNode =>
    let className := nodeText code nameNode
    let edits1 :=
      match D.class_map.lookup currentClass with
      | some origFull =>
        let origShort := shortName origFull
        let currentShort := shortName currentClass
        if currentShort = className ∧ currentShort ≠ origShort then
          edits.add nameNode.startB nameNode.endB origShort
            ("class decl (context): " ++ className ++ " -> " ++ origShort)
        else edits
      | none =>
        match short_class_map D.class_map className with
        | some o =>
          edits.add nameNode.startB nameNode.endB o
            ("class decl: " ++ className ++ " -> " ++ o)
        | none => edits
    let edits2 := match n.childByField "superclass" with
      | some sup => handle_superclass D code sup edits1
      | none => edits1
    match n.childByField "interfaces" with
    | some ifs => handle_interfaces D code ifs edits2
    | none => edits2

/-- `self._handle_constructor_declaration`: the constructor name tracks the
class rename. -/
def handle_constructor_declaration (D : Deobfuscator) (code : List Char)
    (currentClass : String) (n : ASTNode) (edits : TextEdits) : TextEdits :=
  match n.childByField "name" with
  | none => edits
  | some nameNode =>
    let constructorName := nodeText code nameNode
    match D.class_map.lookup currentClass with
    | some origFull =>
      let origShort := shortName origFull
      let currentShort := shortName currentClass
      if currentShort = constructorName ∧ currentShort ≠ origShort then
        edits.add nameNode.startB nameNode.endB origShort
          ("constructor: " ++ constructorName ++ " -> " ++ origShort)
      else edits
    | none =>
      match short_class_map D.class_map constructorName with
      | some o =>
        edits.add nameNode.startB nameNode.endB o
          ("constructor: " ++ constructorName ++ " -> " ++ o)
      | none => edits

/-- `path.split('.')[:-1]` joined with `'.'`. -/
def dropLastComponentStr (path : String) : String :=
  if '.' ∈ path.data then
    String.mk (((path.data.reverse.dropWhile (· ≠ '.')).drop 1).reverse)
  else ""

/-- The child loop of `self._handle_import_declaration`: at the first
`scoped_identifier` child that matches, rewrite the full path or its
trailing segment and stop. -/
def importChildren (D : Deobfuscator) (code : List Char) :
    List (Option String × ASTNode) → TextEdits → TextEdits
  | [], edits => edits
  | c :: cs, edits =>
    if c.2.kind == "scoped_identifier" then
      let path := nodeText code c.2
      match D.class_map.lookup path with
      | some np =>
        edits.add c.2.startB c.2.endB np ("import: " ++ path ++ " -> " ++ np)
      | none =>
        match D.class_map.find? (fun p => path.endsWith ("." ++ shortName p.1)) with
        | some p =>
          let pre := dropLastComponentStr path
          let newShort := shortName p.2
          let newPath := if pre ≠ "" then pre ++ "." ++ newShort else newShort
          edits.add c.2.startB c.2.endB newPath
            ("import suffix: " ++ path ++ " -> " ++ newPath)
        | none => importChildren D code cs edits
    else importChildren D code cs edits

/-- `self._handle_import_declaration`. -/
def handle_import_declaration (D : Deobfuscator) (code : List Char)
    (n : ASTNode) (edits : TextEdits) : TextEdits :=
  importChildren D code n.childrenRaw edits

/-- `for members in self.member_map.values(): ...` scan of
`_handle_string_literal` for reflection method names. -/
def memberMapFindMethod (mm : List (String × List MemberRecord))
    (content : String) : Option String :=
  mm.findSome? (fun p =>
    (p.2.find? (fun m => m.is_method && m.obf == content)).map (·.orig))

/-- `self._handle_string_literal`: conservative reflection-only rewriting of
a literal's body, dispatching on the enclosing invocation's name. -/
def handle_string_literal (D : Deobfuscator) (code : List Char)
    (parent gparent : Option ASTNode) (n : ASTNode) (edits : TextEdits) :
    TextEdits :=
  let fullText := nodeText code n
  if fullText.length < 2 then edits
  else
    let content := String.mk ((fullText.data.drop 1).dropLast)
    if content = "" ∨ content.length < 2 then edits
    else
      match parent, gparent with
      | some p, some gp =>
        if p.kind ≠ "argument_list" then edits
        else if gp.kind ≠ "method_invocation" then edits
        else
          match gp.childByField "name" with
          | none => edits
          | some mn =>
            let methodName := nodeText code mn
            if methodName = "forName" then
              let objOk : Bool := match gp.childByField "object" with
                | some objN =>
                  let objText := nodeText code objN
                  objText == "Class" || objText == "java.lang.Class"
                | none => true
              if !objOk then edits
              else if '.' ∈ content.data then
                match D.class_map.lookup content with
                | some nc =>
                  edits.add (n.startB + 1) (n.endB - 1) nc
                    ("reflection: Class.forName(" ++ content ++ ") -> " ++ nc)
                | none => edits
              else edits
            else if methodName = "getMethod" ∨ methodName = "getDeclaredMethod" then
              let args := p.childrenRaw.filter
                (fun c => !(["(", ")", ","].contains c.2.kind))
              match args.head? with
              | some first =>
                if first.2.id ≠ n.id then edits
                else
                  match memberMapFindMethod D.member_map content with
                  | some orig =>
                    edits.add (n.startB + 1) (n.endB - 1) orig
                      ("reflection: " ++ methodName ++ "(" ++ content ++ ") -> " ++ orig)
                  | none => edits
              | none => edits
            else edits
      | _, _ => edits

/-- The per-node dispatch of `self._visit_node` (the handler part, before
recursing into children). -/
def dispatch (D : Deobfuscator) (code : List Char) (currentClass : String)
    (parents : List ASTNode) (n : ASTNode) (vt : List (String × String))
    (edits : TextEdits) : List (String × String) × TextEdits :=
  if n.kind == "class_declaration" || n.kind == "interface_declaration" ||
      n.kind == "enum_declaration" then
    (vt, handle_class_declaration D code currentClass n edits)
  else if n.kind == "constructor_declaration" then
    (vt, handle_constructor_declaration D code currentClass n edits)
  else if n.kind == "import_declaration" then
    (vt, handle_import_declaration D code n edits)
  else if n.kind == "local_variable_declaration" then
    (handle_local_var_decl code n vt, edits)
  else if n.kind == "formal_parameter" then
    (handle_formal_param code n vt, edits)
  else if n.kind == "method_invocation" then
    (vt, handle_method_invocation D code currentClass n vt edits)
  else if n.kind == "field_access" then
    (vt, handle_field_access D code currentClass n vt edits)
  else if n.kind == "scoped_type_identifier" then
    (vt, handle_scoped_type_identifier D code n edits)
  else if n.kind == "type_identifier" then
    (vt, handle_type_identifier D code parents.head? n edits)
  else if n.kind == "string_literal" then
    (vt, handle_string_literal D code parents.head? (parents.drop 1).head? n edits)
  else (vt, edits)

mutual
/-- `self._visit_node(node, ...)`: run the handler for the node, then visit
the children in order, threading the type environment and the edit set. -/
def visitNode (D : Deobfuscator) (code : List Char) (currentClass : String)
    (parents : List ASTNode) :
    ASTNode → List (String × String) × TextEdits →
      List (String × String) × TextEdits
  | n@(ASTNode.node _ _ _ _ cs), st =>
    let st' := dispatch D code currentClass parents n st.1 st.2
    visitChildren D code currentClass (n :: parents) cs st'
def visitChildren (D : Deobfuscator) (code : List Char) (currentClass : String)
    (parents : List ASTNode) :
    List (Option String × ASTNode) → List (String × String) × TextEdits →
      List (String × String) × TextEdits
  | [], st => st
  | c :: cs, st =>
    visitChildren D code currentClass parents cs
      (visitNode D code currentClass parents c.2 st)
end

/-- The edit set accumulated by one `ASTDeobfuscator.process` pass, before
`apply` (steps 3 of `process`: the `TextEdits()` collection after the full
traversal with `var_types = {'this': current_class}`). -/
def collectEdits (D : Deobfuscator) (code : List Char) (tree : ASTNode)
    (currentClass : String) : TextEdits :=
  (visitNode D code currentClass [] tree ([("this", currentClass)],
    TextEdits.empty)).2

/-- `ASTDeobfuscator.process(code, current_class)`, given the parsed tree of
`code` (the tree-sitter parser is an external collaborator, assumed
available): gate on the error-node ratio, then collect and apply the edits.
An `Except.error` is the typed `ASTParseError`. -/
def process (D : Deobfuscator) (code : List Char) (tree : ASTNode)
    (currentClass : String) : Except String String :=
  if get_error_ratio tree > (1 / 10 : ℚ) then
    Except.error "Too many errors"
  else
    Except.ok ((collectEdits D code tree currentClass).apply code).1

/-! ## Theorems for the specified claims -/

/-- A string carrying one of the codec's explicit invalid tags
(`<invalid:...>`, `<truncated:...>`, `<incomplete_array>`, ...): all of them
start with `'<'`, which no well-formed decoded type name does. -/
def taggedStr (s : String) : Bool :=
  s.data.head? == some '<'

/-- Whether a method-descriptor parse result carries any invalid-tagged
string. -/
def taggedResult (r : List String × String × Bool) : Bool :=
  r.1.any taggedStr || taggedStr r.2.1

theorem taggedStr_append_left (s t : String) (h : taggedStr s = true) :
    taggedStr (s ++ t) = true := by
  unfold taggedStr at h ⊢
  rw [String.data_append]
  cases hs : s.data with
  | nil => rw [hs] at h; simp at h
  | cons c cl =>
    rw [hs] at h
    simp only [List.head?_cons, beq_iff_eq, Option.some_inj] at h
    subst h
    simp

theorem parseJvmTypeAux_false_tagged :
    ∀ l : List Char, (parseJvmTypeAux l).2 = false →
      taggedStr (parseJvmTypeAux l).1 = true := by
  intro l
  cases l with
  | nil => intro h; simp [parseJvmTypeAux] at h
  | cons c rest =>
    intro h
    unfold parseJvmTypeAux at h ⊢
    by_cases h1 : rest = [] ∧ (primName c).isSome
    · rw [if_pos h1] at h
      simp at h
    · rw [if_neg h1] at h ⊢
      by_cases h2 : c = '['
      · rw [if_pos h2] at h ⊢
        cases hq : (parseJvmTypeAux rest).2 with
        | true => simp only [hq, if_true] at h; simp at h
        | false =>
          simp only [hq, if_false] at h ⊢
          exact taggedStr_append_left _ _ (taggedStr_append_left _ _ (by decide))
      · rw [if_neg h2] at h ⊢
        by_cases h3 : c = 'L' ∧ (c :: rest).getLast? = some ';'
        · rw [if_pos h3] at h
          by_cases h4 :
              '.' ∈ rest.dropLast.map (fun ch => if ch = '/' then '.' else ch)
          · simp only [if_pos h4] at h; simp at h
          · simp only [if_neg h4] at h; simp at h
        · rw [if_neg h3] at h ⊢
          exact taggedStr_append_left _ _ (taggedStr_append_left _ _ (by decide))

/-- C6 (amended): the descriptor codec is total (it never raises — both
functions are plain total functions), and every failure of the type codec
produces an invalid-tagged name; but a method descriptor that does not start
with `'('` yields `([], "void", ok=false)` with no tag, and that is the only
amendment the code forces. -/
theorem descriptor_codec_malformed :
    ∀ d : String,
      ((parse_jvm_type d).2 = false → taggedStr (parse_jvm_type d).1 = true) ∧
      (d.data.head? ≠ some '(' → parse_method_descriptor d = ([], "void", false)) ∧
      (d.data.head? = some 'L' → d.data.getLast? ≠ some ';' →
        parse_jvm_type d = ("<invalid:" ++ d ++ ">", false)) := by
  intro d
  refine ⟨parseJvmTypeAux_false_tagged d.data, ?_, ?_⟩
  · intro hne
    unfold parse_method_descriptor
    rw [if_neg hne]
  · intro hL hsemi
    cases hd : d.data with
    | nil => rw [hd] at hL; simp at hL
    | cons c rest =>
      rw [hd] at hL hsemi
      simp only [List.head?_cons, Option.some_inj] at hL
      subst hL
      have hred : parseJvmTypeAux ('L' :: rest) =
          ("<invalid:" ++ String.mk ('L' :: rest) ++ ">", false) := by
        unfold parseJvmTypeAux
        rw [if_neg (by simp [primName]), if_neg (by decide),
          if_neg (fun hc => hsemi hc.2)]
      calc parse_jvm_type d = parseJvmTypeAux d.data := rfl
        _ = parseJvmTypeAux ('L' :: rest) := by rw [hd]
        _ = ("<invalid:" ++ String.mk ('L' :: rest) ++ ">", false) := hred
        _ = ("<invalid:" ++ d ++ ">", false) := by rw [← hd]

/-- C6 (witness): concrete malformed inputs — a missing `';'` terminator is
tagged and `ok=false`; a descriptor without `'('` is untagged `void` with
`ok=false`. -/
theorem descriptor_codec_malformed_witness :
    parse_jvm_type "Labc" = ("<invalid:" ++ "Labc" ++ ">", false) ∧
    parse_method_descriptor "I" = ([], "void", false) :=
  ⟨(descriptor_codec_malformed "Labc").2.2 (by decide) (by decide),
   (descriptor_codec_malformed "I").2.1 (by decide)⟩

/-- C6 (counterexample): `parse_method_descriptor "I"` — a method descriptor
not starting with `'('` — returns `ok=false` but its result contains no
invalid-tagged string, contradicting the claim that all three malformed
categories yield a tagged result. -/
theorem descriptor_codec_counterexample :
    parse_method_descriptor "I" = ([], "void", false) ∧
    taggedResult (parse_method_descriptor "I") = false := by
  constructor
  · rfl
  · rfl

/-- A two-overload class with no recorded descriptors or signatures:
`m` maps to both `foo` and `bar` on class `a`. -/
def ambiguousIndex : List (String × List MemberRecord) :=
  [("a", [⟨"m", "foo", true, none, none, none⟩,
          ⟨"m", "bar", true, none, none, none⟩])]

/-- C1 (counterexample): on a receiver class with two method records sharing
the obfuscated name `m`, none disambiguable by descriptor or argument count
(no signatures are recorded, so both count as 0 parameters), `resolve_method`
returns the first overload's original name — both for an unknown argument
count (`-1`) and for a known argument count (`1`) matching neither record —
instead of the unresolved `none` the claim requires. -/
theorem resolve_method_ambiguity_counterexample :
    resolve_method ambiguousIndex [] "a" "m" (-1) = some "foo" ∧
    resolve_method ambiguousIndex [] "a" "m" 1 = some "foo" := by
  constructor
  · rfl
  · rfl

/-- C1 (amended): when the first class the BFS visits holds overloads for
the queried name and none matches the known argument count (or the count is
unknown), `resolve_method` falls back to the first record's original name —
a positional guess; it returns `none` only for an empty receiver type or
when the BFS finds no record at all. -/
theorem resolve_method_first_record_on_ambiguity :
    ∀ (mm : List (String × List MemberRecord)) (pm : List (String × List String))
      (t n : String) (argc : Int) (ms : List MemberRecord)
      (m0 : MemberRecord) (tl : List MemberRecord),
      t ≠ "" →
      mm.lookup t = some ms →
      methodRecords ms n = m0 :: tl →
      (argc < 0 ∨ ∀ m ∈ methodRecords ms n,
        ((count_params (m.signature.getD "") : Int)) ≠ argc) →
      resolve_method mm pm t n argc = some m0.orig := by
  intro mm pm t n argc ms m0 tl ht hlk hrecs hnomatch
  have hfound : methodFound mm n argc t = some m0.orig := by
    unfold methodFound
    rw [hlk]
    simp only [hrecs, List.isEmpty_cons, Bool.false_eq_true, if_false]
    have hfind : (if 0 ≤ argc then
        (m0 :: tl).find?
          (fun m => ((count_params (m.signature.getD "") : Int)) == argc)
      else none) = none := by
      rcases hnomatch with hneg | hall
      · rw [if_neg (by omega)]
      · by_cases hge : 0 ≤ argc
        · rw [if_pos hge]
          apply List.find?_eq_none.mpr
          intro m hm
          have := hall m (hrecs ▸ hm)
          simp only [beq_iff_eq]
          exact this
        · rw [if_neg hge]
    rw [hfind]
    rfl
  unfold resolve_method
  rw [if_neg ht]
  show (bfsLoop pm (methodFound mm n argc)
      ([t].length + potential (keyList pm) (fun k => 1 + (getParents pm k).length) [] + 1)
      [t] []).join = some m0.orig
  simp only [List.length_cons, List.length_nil]
  rw [show (0 + 1 + potential (keyList pm) (fun k => 1 + (getParents pm k).length) [] + 1)
      = (potential (keyList pm) (fun k => 1 + (getParents pm k).length) [] + 1) + 1
    from by omega]
  unfold bfsLoop
  rw [if_neg (by simp), hfound]
  rfl

/-- C1 (witness): the amended theorem applied to the concrete two-overload
index. -/
theorem resolve_method_first_record_on_ambiguity_witness :
    resolve_method ambiguousIndex [] "a" "m" 1 = some "foo" :=
  resolve_method_first_record_on_ambiguity ambiguousIndex [] "a" "m" 1
    [⟨"m", "foo", true, none, none, none⟩, ⟨"m", "bar", true, none, none, none⟩]
    ⟨"m", "foo", true, none, none, none⟩ [⟨"m", "bar", true, none, none, none⟩]
    (by decide) (by decide) (by decide)
    (Or.inr (by decide))

/-- C10: `get_method_return_type` is a plain dictionary lookup with no
inheritance search — a result exists only when the class's own member
records hold a method record for the name with a non-empty, non-primitive
return type; a missing class entry yields `none` regardless of any parent
map (the function does not even consult one); in contrast `get_field_type`
does walk the inheritance chain: a field type recorded only on the parent
is found from the child. -/
theorem method_return_type_no_inheritance :
    ∀ (mm : List (String × List MemberRecord)) (pm : List (String × List String))
      (c n : String),
      (∀ t, get_method_return_type mm c n = some t →
        ∃ ms m, mm.lookup c = some ms ∧ m ∈ ms ∧ m.is_method = true ∧
          m.obf = n ∧ m.return_type = some t ∧ t ≠ "" ∧ t ∉ primReturnTypes) ∧
      (mm.lookup c = none → get_method_return_type mm c n = none) ∧
      (∀ (p f τ : String), c ≠ "" → getParents pm c = [p] →
        (mm.lookup c).bind (fun ms => fieldTypeAt ms f) = none →
        (mm.lookup p).bind (fun ms => fieldTypeAt ms f) = some τ →
        get_field_type mm pm c f = some τ) := by
  intro mm pm c n
  refine ⟨?_, ?_, ?_⟩
  · intro t hres
    unfold get_method_return_type method_returns at hres
    cases hlk : mm.lookup c with
    | none => rw [hlk] at hres; simp at hres
    | some ms =>
      rw [hlk] at hres
      simp only [Option.some_bind, Option.map_eq_some'] at hres
      obtain ⟨m, hlast, hval⟩ := hres
      have hmemf := List.mem_of_getLast?_eq_some hlast
      rw [List.mem_filter] at hmemf
      obtain ⟨hmem, hpred⟩ := hmemf
      rw [Bool.and_eq_true, Bool.and_eq_true, Bool.and_eq_true] at hpred
      obtain ⟨⟨⟨ha, hb⟩, hc⟩, hd⟩ := hpred
      have hb' : m.obf = n := by simpa using hb
      have hc' : m.return_type.getD "" ≠ "" := by simpa using hc
      have hd' : m.return_type.getD "" ∉ primReturnTypes := by
        intro hmem2
        have he : primReturnTypes.contains (m.return_type.getD "") = true :=
          List.elem_eq_true_of_mem hmem2
        rw [he] at hd
        exact Bool.noConfusion hd
      refine ⟨ms, m, rfl, hmem, ha, hb', ?_, ?_, ?_⟩
      · cases hrt : m.return_type with
        | none =>
          exfalso
          rw [hrt] at hc'
          simp at hc'
        | some r =>
          rw [hrt] at hval
          simp only [Option.getD_some] at hval
          rw [hval]
      · rw [← hval]
        exact hc'
      · rw [← hval]
        exact hd'
  · intro hnone
    unfold get_method_return_type method_returns
    rw [hnone]
    rfl
  · intro p f τ hc hpar hcnone hpsome
    have hpc : p ≠ c := by
      intro he
      rw [he, hcnone] at hpsome
      exact Option.noConfusion hpsome
    unfold get_field_type
    rw [if_neg hc]
    show (bfsLoop pm (fun x => (mm.lookup x).bind (fun ms => fieldTypeAt ms f))
        ([c].length + potential (keyList pm)
          (fun k => 1 + (getParents pm k).length) [] + 1) [c] []).join = some τ
    simp only [List.length_cons, List.length_nil]
    rw [show (0 + 1 + potential (keyList pm)
          (fun k => 1 + (getParents pm k).length) [] + 1)
        = (potential (keyList pm) (fun k => 1 + (getParents pm k).length) [] + 1) + 1
      from by omega]
    unfold bfsLoop
    rw [if_neg (by simp)]
    simp only [hcnone]
    rw [hpar]
    simp only [List.nil_append]
    unfold bfsLoop
    rw [if_neg (by simp [hpc])]
    simp only [hpsome]
    rfl

/-- A concrete index for the C10 witness: class `a` records method `m` with
return type `Foo` and field `fld` of type `Bar`. -/
def c10index : List (String × List MemberRecord) :=
  [("a", [⟨"m", "getFoo", true, none, none, some "Foo"⟩,
          ⟨"fld", "count", false, none, none, some "Bar"⟩])]

/-- C10 (witness): the implications at the concrete index — the recorded
method return type comes from class `a` itself; the child `b` reaches the
field type on parent `a` through the parent map. -/
theorem method_return_type_no_inheritance_witness :
    (∃ ms m, c10index.lookup "a" = some ms ∧ m ∈ ms ∧ m.is_method = true ∧
      m.obf = "m" ∧ m.return_type = some "Foo" ∧ "Foo" ≠ "" ∧
      "Foo" ∉ primReturnTypes) ∧
    get_field_type c10index [("b", ["a"])] "b" "fld" = some "Bar" := by
  constructor
  · exact (method_return_type_no_inheritance c10index [] "a" "m").1 "Foo" (by decide)
  · exact (method_return_type_no_inheritance c10index [("b", ["a"])] "b" "m").2.2
      "a" "fld" "Bar" (by decide) (by decide) (by decide) (by decide)

/-- C3: at the first ancestor the inheritance-chain search visits, an exact
descriptor match takes precedence — whenever the ancestor's member records
contain a method record whose descriptor exactly equals the queried
method's descriptor (all such records sharing one original name) together
with a different same-obfuscated-name record without a descriptor, the
search returns the exact-descriptor record's original name, never the
descriptor-less same-name record's. -/
theorem exact_descriptor_precedence :
    ∀ (mm : List (String × List MemberRecord)) (smali : List (String × SmaliClass))
      (obf a : String) (rest : List String) (ms : List MemberRecord)
      (method : SmaliMethod) (ex same : MemberRecord),
      get_inheritance_chain smali obf = a :: rest →
      mm.lookup a = some ms →
      ex ∈ ms → ex.is_method = true → ex.descriptor = some method.descriptor →
      method.descriptor ≠ "" →
      (∀ m ∈ ms, m.is_method = true → descTruthy m = true →
        m.descriptor = some method.descriptor → m.orig = ex.orig) →
      same ∈ ms → same.obf = method.name → same.descriptor = none →
      same.orig ≠ ex.orig →
      find_inherited_method_recursive mm smali obf method = some ex.orig ∧
      find_inherited_method_recursive mm smali obf method ≠ some same.orig := by
  intro mm smali obf a rest ms method ex same hchain hlk hexmem hexmeth hexdesc
    hdne huniq _hsmem _hsobf _hsdesc hneq
  have hpass1 : inheritedPass1 ms method.descriptor = some ex.orig := by
    unfold inheritedPass1
    have hsome : (ms.find? (fun m => m.is_method && descTruthy m &&
        m.descriptor == some method.descriptor)).isSome := by
      rw [List.find?_isSome]
      refine ⟨ex, hexmem, ?_⟩
      rw [Bool.and_eq_true, Bool.and_eq_true]
      refine ⟨⟨hexmeth, ?_⟩, by simp [hexdesc]⟩
      unfold descTruthy
      rw [hexdesc]
      simpa using hdne
    cases hfm : ms.find? (fun m => m.is_method && descTruthy m &&
        m.descriptor == some method.descriptor) with
    | none => rw [hfm] at hsome; simp at hsome
    | some m =>
      have hp := List.find?_some hfm
      rw [Bool.and_eq_true, Bool.and_eq_true] at hp
      obtain ⟨⟨hm1, hm2⟩, hm3⟩ := hp
      have hm3' : m.descriptor = some method.descriptor := by simpa using hm3
      have := huniq m (List.mem_of_find?_eq_some hfm) hm1 hm2 hm3'
      simp [this]
  have hmain : find_inherited_method_recursive mm smali obf method = some ex.orig := by
    unfold find_inherited_method_recursive
    rw [hchain]
    have hAB : findInheritedAB mm (a :: rest) method = some ex.orig := by
      unfold findInheritedAB
      rw [hlk]
      simp only [hpass1]
    simp only [hAB]
  exact ⟨hmain, by rw [hmain]; simpa using fun hh => hneq hh.symm⟩

/-- The C3 witness scenario: class `c0` extends ancestor `a`, whose member
records hold the exact-descriptor record (`m -> draw`, `()V`) and a
descriptor-less overload record (`m -> render`). -/
def c3smali : List (String × SmaliClass) :=
  [("c0", ⟨"c0", "a", [], [], [], false, false⟩)]

def c3ex : MemberRecord := ⟨"m", "draw", true, some "()V", none, none⟩

def c3same : MemberRecord := ⟨"m", "render", true, none, none, none⟩

def c3mm : List (String × List MemberRecord) := [("a", [c3ex, c3same])]

def c3method : SmaliMethod := ⟨"m", "()V", "void", [], false, false, false, false, false⟩

/-- C3 (witness): the precedence theorem applied to the concrete scenario —
the inherited resolution returns `draw` (the exact-descriptor match), not
`render`. -/
theorem exact_descriptor_precedence_witness :
    find_inherited_method_recursive c3mm c3smali "c0" c3method = some "draw" ∧
    find_inherited_method_recursive c3mm c3smali "c0" c3method ≠ some "render" :=
  exact_descriptor_precedence c3mm c3smali "c0" "a" [] [c3ex, c3same] c3method
    c3ex c3same (by decide) (by decide) (by decide) (by decide) (by decide)
    (by decide) (by decide) (by decide) (by decide) (by decide) (by decide)

/-- C8: the cycle-safe traversals terminate on every inheritance graph,
including cyclic and self-referential ones: with the stated fuel —
`|queue|` plus the total weight of the unvisited classes plus one — the
inheritance-chain BFS of `get_inheritance_chain` and the BFS loop
underlying `resolve_field` and `resolve_method` all finish (the loop's
fuel never runs out), for arbitrary parent maps and smali universes. -/
theorem bfs_traversal_terminates :
    (∀ (smali : List (String × SmaliClass)) (start : String),
      (chainLoop smali start (chainBound smali [start]) [start] [] []).isSome) ∧
    (∀ (mm : List (String × List MemberRecord)) (pm : List (String × List String))
      (t f : String),
      (bfsLoop pm (fun c => field_index mm c f) (bfsBound pm [t]) [t] []).isSome) ∧
    (∀ (mm : List (String × List MemberRecord)) (pm : List (String × List String))
      (t n : String) (argc : Int),
      (bfsLoop pm (methodFound mm n argc) (bfsBound pm [t]) [t] []).isSome) := by
  refine ⟨fun smali start => ?_, fun mm pm t f => ?_, fun mm pm t n argc => ?_⟩
  · apply chainLoop_isSome
    unfold chainBound
    omega
  · apply bfsLoop_isSome
    unfold bfsBound
    omega
  · apply bfsLoop_isSome
    unfold bfsBound
    omega

/-- C9 (amended): `TextEdits.apply` does not destroy the collection — it
returns it with exactly as many edits as before (merely re-ordered by the
in-place descending sort) and with the position keys untouched, so a second
`apply` on the same collection re-applies the same modifications. -/
theorem apply_retains_edits :
    ∀ (te : TextEdits) (source : List Char),
      ((te.apply source).2).edits.length = te.edits.length ∧
      ((te.apply source).2).positions = te.positions := by
  intro te source
  unfold TextEdits.apply
  by_cases he : te.edits.isEmpty
  · rw [if_pos he]
    exact ⟨rfl, rfl⟩
  · rw [if_neg he]
    exact ⟨List.length_mergeSort .., rfl⟩

unseal List.merge List.mergeSort in
/-- C9 (counterexample): after `apply`, a one-edit collection still holds
its edit — the edit set is not destroyed, and re-applying it to the same
source performs the same replacement again. -/
theorem apply_retains_edits_counterexample :
    (((TextEdits.empty.add 0 1 "x" "r").apply "ab".data).2).edits =
      [⟨0, 1, "x", "r"⟩] ∧
    ((((TextEdits.empty.add 0 1 "x" "r").apply "ab".data).2).apply
      "ab".data).1 = "xb" := by
  constructor
  · rfl
  · rfl

/-- C4: the rewrite pass raises the typed parse-quality error if and only if
the fraction of `ERROR` nodes among all nodes of the parsed tree exceeds the
fixed threshold `0.1` (the tree-sitter parser being available is modelled by
the tree argument); at or below the threshold it returns rewritten text. -/
theorem process_gates_on_error_ratio :
    ∀ (D : Deobfuscator) (code : List Char) (tree : ASTNode) (cls : String),
      ((∃ e, process D code tree cls = Except.error e) ↔
        get_error_ratio tree > 1 / 10) ∧
      ((∃ s, process D code tree cls = Except.ok s) ↔
        get_error_ratio tree ≤ 1 / 10) := by
  intro D code tree cls
  unfold process
  by_cases h : get_error_ratio tree > (1 / 10 : ℚ)
  · rw [if_pos h]
    refine ⟨⟨fun _ => h, fun _ => ⟨_, rfl⟩⟩, ?_, ?_⟩
    · rintro ⟨s, hs⟩
      exact Except.noConfusion hs
    · intro hle
      exact absurd h (not_lt.mpr hle)
  · rw [if_neg h]
    push_neg at h
    refine ⟨⟨?_, ?_⟩, fun _ => h, fun _ => ⟨_, rfl⟩⟩
    · rintro ⟨e, hhe⟩
      exact Except.noConfusion hhe
    · intro hgt
      exact absurd hgt (not_lt.mpr h)

/-- Edit states reachable from a given collection by `add` calls only —
every rewrite-engine handler only ever inserts through `TextEdits.add`. -/
inductive AddOnly : TextEdits → TextEdits → Prop
  | refl (te : TextEdits) : AddOnly te te
  | step {te te' : TextEdits} (s e : Nat) (t r : String) :
      AddOnly te te' → AddOnly te (te'.add s e t r)

theorem AddOnly.trans {a b c : TextEdits} (h1 : AddOnly a b)
    (h2 : AddOnly b c) : AddOnly a c := by
  induction h2 with
  | refl => exact h1
  | step s e t r _ ih => exact .step s e t r ih

theorem addOnly_add (te : TextEdits) (s e : Nat) (t r : String) :
    AddOnly te (te.add s e t r) :=
  .step s e t r (.refl te)

/-- The `(start, end)` keys of the collected edits. -/
def editKeys (te : TextEdits) : List (Nat × Nat) :=
  te.edits.map (fun ed => (ed.start_byte, ed.end_byte))

/-- The `TextEdits` invariant: edit keys are pairwise distinct, and the
position set is exactly the key set. -/
def EditInv (te : TextEdits) : Prop :=
  (editKeys te).Nodup ∧ ∀ p : Nat × Nat, p ∈ te.positions ↔ p ∈ editKeys te

theorem editInv_empty : EditInv TextEdits.empty := by
  constructor
  · simp [editKeys, TextEdits.empty]
  · intro p
    simp [editKeys, TextEdits.empty]

theorem editInv_add (te : TextEdits) (s e : Nat) (t r : String)
    (h : EditInv te) : EditInv (te.add s e t r) := by
  unfold TextEdits.add
  by_cases hp : (s, e) ∈ te.positions
  · rw [if_pos hp]
    exact h
  · rw [if_neg hp]
    obtain ⟨hnd, hiff⟩ := h
    have hkeys : editKeys ⟨te.edits ++ [⟨s, e, t, r⟩], (s, e) :: te.positions⟩ =
        editKeys te ++ [(s, e)] := by
      simp [editKeys]
    constructor
    · rw [hkeys, List.nodup_append]
      refine ⟨hnd, List.nodup_singleton _, ?_⟩
      intro a ha hb
      simp only [List.mem_singleton] at hb
      subst hb
      exact hp ((hiff (s, e)).mpr ha)
    · intro p
      show p ∈ (s, e) :: te.positions ↔ _
      rw [hkeys]
      simp only [List.mem_cons, List.mem_append, List.mem_singleton,
        List.not_mem_nil, or_false]
      rw [hiff p]
      tauto

theorem addOnly_inv {a b : TextEdits} (h : AddOnly a b) (ha : EditInv a) :
    EditInv b := by
  induction h with
  | refl => exact ha
  | step s e t r _ ih => exact editInv_add _ s e t r ih

theorem addOnly_foldl {α : Type} (f : TextEdits → α → TextEdits)
    (hf : ∀ acc c, AddOnly acc (f acc c)) :
    ∀ (l : List α) (acc : TextEdits), AddOnly acc (l.foldl f acc)
  | [], acc => .refl acc
  | c :: cs, acc => (hf acc c).trans (addOnly_foldl f hf cs (f acc c))

theorem addOnly_scoped (D : Deobfuscator) (code : List Char) (n : ASTNode)
    (edits : TextEdits) :
    AddOnly edits (handle_scoped_type_identifier D code n edits) := by
  unfold handle_scoped_type_identifier
  dsimp only
  split
  · apply addOnly_add
  · split
    · split
      · apply addOnly_add
      · exact .refl _
    · exact .refl _

theorem addOnly_type_identifier (D : Deobfuscator) (code : List Char)
    (parent : Option ASTNode) (n : ASTNode) (edits : TextEdits) :
    AddOnly edits (handle_type_identifier D code parent n edits) := by
  unfold handle_type_identifier
  dsimp only
  split
  · exact .refl _
  · split
    · apply addOnly_add
    · exact .refl _

theorem addOnly_superclass (D : Deobfuscator) (code : List Char) (n : ASTNode)
    (edits : TextEdits) : AddOnly edits (handle_superclass D code n edits) := by
  unfold handle_superclass
  apply addOnly_foldl
  intro acc c
  split
  · dsimp only
    split
    · apply addOnly_add
    · exact .refl _
  · split
    · exact addOnly_scoped D code c.2 acc
    · exact .refl _

mutual
theorem addOnly_interfaces (D : Deobfuscator) (code : List Char) :
    ∀ (n : ASTNode) (edits : TextEdits),
      AddOnly edits (handle_interfaces D code n edits)
  | .node i k s e cs, edits => by
    unfold handle_interfaces
    exact addOnly_interfacesChildren D code cs edits
theorem addOnly_interfacesChildren (D : Deobfuscator) (code : List Char) :
    ∀ (cs : List (Option String × ASTNode)) (edits : TextEdits),
      AddOnly edits (interfacesChildren D code cs edits)
  | [], edits => by
    unfold interfacesChildren
    exact .refl _
  | c :: cs, edits => by
    unfold interfacesChildren
    refine AddOnly.trans ?_ (addOnly_interfacesChildren D code cs _)
    split
    · dsimp only
      split
      · apply addOnly_add
      · exact .refl _
    · split
      · exact addOnly_interfaces D code c.2 edits
      · split
        · exact addOnly_scoped D code c.2 edits
        · exact .refl _
end

theorem addOnly_class_declaration (D : Deobfuscator) (code : List Char)
    (cls : String) (n : ASTNode) (edits : TextEdits) :
    AddOnly edits (handle_class_declaration D code cls n edits) := by
  unfold handle_class_declaration
  cases hname : n.childByField "name" with
  | none => exact .refl _
  | some nameNode =>
    dsimp only
    cases hifs : n.childByField "interfaces" with
    | some ifs =>
      cases hsup : n.childByField "superclass" with
      | some sup =>
        refine AddOnly.trans
          (AddOnly.trans ?_ (addOnly_superclass D code sup _))
          (addOnly_interfaces D code ifs _)
        split
        · split
          · apply addOnly_add
          · exact .refl _
        · split
          · apply addOnly_add
          · exact .refl _
      | none =>
        refine AddOnly.trans ?_ (addOnly_interfaces D code ifs _)
        dsimp only
        split
        · split
          · apply addOnly_add
          · exact .refl _
        · split
          · apply addOnly_add
          · exact .refl _
    | none =>
      cases hsup : n.childByField "superclass" with
      | some sup =>
        refine AddOnly.trans ?_ (addOnly_superclass D code sup _)
        dsimp only
        split
        · split
          · apply addOnly_add
          · exact .refl _
        · split
          · apply addOnly_add
          · exact .refl _
      | none =>
        dsimp only
        split
        · split
          · apply addOnly_add
          · exact .refl _
        · split
          · apply addOnly_add
          · exact .refl _

theorem addOnly_constructor (D : Deobfuscator) (code : List Char)
    (cls : String) (n : ASTNode) (edits : TextEdits) :
    AddOnly edits (handle_constructor_declaration D code cls n edits) := by
  unfold handle_constructor_declaration
  split
  · exact .refl _
  · dsimp only
    split
    · split
      · apply addOnly_add
      · exact .refl _
    · split
      · apply addOnly_add
      · exact .refl _

theorem addOnly_importChildren (D : Deobfuscator) (code : List Char) :
    ∀ (cs : List (Option String × ASTNode)) (edits : TextEdits),
      AddOnly edits (importChildren D code cs edits)
  | [], edits => by
    unfold importChildren
    exact .refl _
  | c :: cs, edits => by
    unfold importChildren
    split
    · dsimp only
      split
      · apply addOnly_add
      · split
        · apply addOnly_add
        · exact addOnly_importChildren D code cs edits
    · exact addOnly_importChildren D code cs edits

theorem addOnly_import (D : Deobfuscator) (code : List Char) (n : ASTNode)
    (edits : TextEdits) :
    AddOnly edits (handle_import_declaration D code n edits) :=
  addOnly_importChildren D code n.childrenRaw edits

theorem addOnly_string_literal (D : Deobfuscator) (code : List Char)
    (parent gparent : Option ASTNode) (n : ASTNode) (edits : TextEdits) :
    AddOnly edits (handle_string_literal D code parent gparent n edits) := by
  unfold handle_string_literal
  dsimp only
  split
  · exact .refl _
  · split
    · exact .refl _
    · split
      · split
        · exact .refl _
        · split
          · exact .refl _
          · split
            · exact .refl _
            · split
              · split
                · exact .refl _
                · split
                  · split
                    · apply addOnly_add
                    · exact .refl _
                  · exact .refl _
              · split
                · split
                  · split
                    · exact .refl _
                    · split
                      · apply addOnly_add
                      · exact .refl _
                  · exact .refl _
                · exact .refl _
      · exact .refl _

theorem addOnly_method_invocation (D : Deobfuscator) (code : List Char)
    (cls : String) (n : ASTNode) (vt : List (String × String))
    (edits : TextEdits) :
    AddOnly edits (handle_method_invocation D code cls n vt edits) := by
  unfold handle_method_invocation
  split
  · exact .refl _
  · dsimp only
    split
    · split
      · apply addOnly_add
      · exact .refl _
    · exact .refl _

theorem addOnly_field_access (D : Deobfuscator) (code : List Char)
    (cls : String) (n : ASTNode) (vt : List (String × String))
    (edits : TextEdits) :
    AddOnly edits (handle_field_access D code cls n vt edits) := by
  unfold handle_field_access
  split
  · exact .refl _
  · dsimp only
    split
    · exact .refl _
    · split
      · split
        · apply addOnly_add
        · exact .refl _
      · exact .refl _

theorem addOnly_dispatch (D : Deobfuscator) (code : List Char) (cls : String)
    (parents : List ASTNode) (n : ASTNode) (vt : List (String × String))
    (edits : TextEdits) :
    AddOnly edits (dispatch D code cls parents n vt edits).2 := by
  unfold dispatch
  split
  · exact addOnly_class_declaration D code cls n edits
  · split
    · exact addOnly_constructor D code cls n edits
    · split
      · exact addOnly_import D code n edits
      · split
        · exact .refl _
        · split
          · exact .refl _
          · split
            · exact addOnly_method_invocation D code cls n vt edits
            · split
              · exact addOnly_field_access D code cls n vt edits
              · split
                · exact addOnly_scoped D code n edits
                · split
                  · exact addOnly_type_identifier D code parents.head? n edits
                  · split
                    · exact addOnly_string_literal D code parents.head?
                        (parents.drop 1).head? n edits
                    · exact .refl _

mutual
theorem addOnly_visitNode (D : Deobfuscator) (code : List Char) (cls : String) :
    ∀ (parents : List ASTNode) (n : ASTNode)
      (st : List (String × String) × TextEdits),
      AddOnly st.2 (visitNode D code cls parents n st).2
  | parents, .node i k s e cs, st => by
    rw [visitNode]
    exact (addOnly_dispatch D code cls parents (.node i k s e cs) st.1 st.2).trans
      (addOnly_visitChildren D code cls ((ASTNode.node i k s e cs) :: parents) cs _)
theorem addOnly_visitChildren (D : Deobfuscator) (code : List Char) (cls : String) :
    ∀ (parents : List ASTNode) (cs : List (Option String × ASTNode))
      (st : List (String × String) × TextEdits),
      AddOnly st.2 (visitChildren D code cls parents cs st).2
  | _, [], st => by
    unfold visitChildren
    exact .refl _
  | parents, c :: cs, st => by
    unfold visitChildren
    exact (addOnly_visitNode D code cls parents c.2 st).trans
      (addOnly_visitChildren D code cls parents cs _)
end

/-- C2 (amended): within one rewrite pass, duplicate `(start, end)` keys are
deduplicated at insertion with the first writer winning — the accumulated
edit set never holds two edits with the same key — but distinct byte ranges
are not checked against each other, so overlap of distinct ranges is
possible (see the counterexample). -/
theorem collect_edits_distinct_keys :
    (∀ (D : Deobfuscator) (code : List Char) (tree : ASTNode) (cls : String),
      (editKeys (collectEdits D code tree cls)).Nodup) ∧
    (∀ (te : TextEdits) (s e : Nat) (t r : String),
      (s, e) ∈ te.positions → te.add s e t r = te) := by
  constructor
  · intro D code tree cls
    have h := addOnly_inv
      (addOnly_visitNode D code cls [] tree ([("this", cls)], TextEdits.empty))
      editInv_empty
    exact h.1
  · intro te s e t r hp
    unfold TextEdits.add
    rw [if_pos hp]

/-- C2 (witness): the dedup clause at a concrete collection — re-adding the
key `(0, 1)` leaves the first writer's edit in place. -/
theorem collect_edits_distinct_keys_witness :
    (TextEdits.empty.add 0 1 "x" "r").add 0 1 "y" "q" =
      TextEdits.empty.add 0 1 "x" "r" :=
  collect_edits_distinct_keys.2 (TextEdits.empty.add 0 1 "x" "r") 0 1 "y" "q"
    (by decide)

/-- The nested qualified type `a.b.C` as tree-sitter parses it: a
`scoped_type_identifier` whose first child is itself a
`scoped_type_identifier` for `a.b`. -/
def nestedScopedTree : ASTNode :=
  .node 0 "scoped_type_identifier" 0 5
    [(none, .node 1 "scoped_type_identifier" 0 3
        [(none, .node 2 "type_identifier" 0 1 []),
         (none, .node 3 "." 1 2 []),
         (none, .node 4 "type_identifier" 2 3 [])]),
     (none, .node 5 "." 3 4 []),
     (none, .node 6 "type_identifier" 4 5 [])]

/-- A class map containing both the full nested type and its qualifier. -/
def nestedScopedD : Deobfuscator :=
  ⟨[("a.b.C", "x.y.D"), ("a.b", "p.Q")], [], none⟩

/-- Two half-open ranges overlap. -/
def overlapB (e1 e2 : TextEdit) : Bool :=
  decide (e1.start_byte < e2.end_byte) && decide (e2.start_byte < e1.end_byte)

/-- Pairwise non-overlap of an edit list. -/
def noOverlapB : List TextEdit → Bool
  | [] => true
  | ed :: rest => rest.all (fun e2 => !(overlapB ed e2)) && noOverlapB rest

/-- C2 (counterexample): on source `a.b.C` with both `a.b.C` and `a.b` in
the class map, one pass accumulates an edit for the whole span `[0, 5)` and
a second, nested edit for `[0, 3)` — the visitor processes the outer
`scoped_type_identifier` and then recurses into its inner
`scoped_type_identifier` child — so the produced edit set does contain two
edits with overlapping ranges. -/
theorem collect_edits_overlap_counterexample :
    (collectEdits nestedScopedD "a.b.C".data nestedScopedTree "cur").edits =
      [⟨0, 5, "x.y.D", "scoped type: a.b.C -> x.y.D"⟩,
       ⟨0, 3, "p.Q", "scoped type: a.b -> p.Q"⟩] ∧
    noOverlapB
      (collectEdits nestedScopedD "a.b.C".data nestedScopedTree "cur").edits =
      false := by
  constructor
  · rfl
  · rfl

/-- `Class.forName("xx", "a.b")` as a syntax tree: `"a.b"` is the second
argument of the call. -/
def c5lit1 : ASTNode := .node 10 "string_literal" 14 18 []

def c5lit2 : ASTNode := .node 11 "string_literal" 20 25 []

def c5args : ASTNode :=
  .node 12 "argument_list" 13 26
    [(none, .node 13 "(" 13 14 []), (none, c5lit1),
     (none, .node 14 "," 18 19 []), (none, c5lit2),
     (none, .node 15 ")" 25 26 [])]

def c5call : ASTNode :=
  .node 18 "method_invocation" 0 26
    [(some "object", .node 16 "identifier" 0 5 []),
     (none, .node 19 "." 5 6 []),
     (some "name", .node 17 "identifier" 6 13 []),
     (some "arguments", c5args)]

def c5code : List Char := "Class.forName(\"xx\", \"a.b\")".data

def c5D : Deobfuscator := ⟨[("a.b", "p.Q")], [], none⟩

unseal resolve_expression_type in
/-- C5 (counterexample): the rewrite pass edits the body of `"a.b"` even
though it is the second argument of `Class.forName` — the `forName` handler
never checks the literal's argument position — so a mapped dotted literal
outside the sole/first argument position is not left byte-for-byte
unchanged.  The first conjunct shows the produced edit targets bytes
`[21, 24)`, the interior of the second-argument literal `[20, 25)`; the
second shows the first argument of the call is the other literal. -/
theorem string_literal_position_counterexample :
    (collectEdits c5D c5code c5call "cur").edits =
      [⟨21, 24, "p.Q", "reflection: Class.forName(a.b) -> p.Q"⟩] ∧
    ((c5args.childrenRaw.filter
        (fun c => !(["(", ")", ","].contains c.2.kind))).head?.map
      (fun c => c.2.id)) = some c5lit1.id ∧ c5lit1.id ≠ c5lit2.id := by
  refine ⟨?_, ?_, ?_⟩
  · rfl
  · rfl
  · decide

/-- C5 (amended): a string literal is edited only inside the argument list
of a method invocation named `forName` (any argument position — position is
not checked — with the receiver absent or exactly `Class`/`java.lang.Class`
and with dotted content present in the class map) or named
`getMethod`/`getDeclaredMethod` (first argument only, content matching a
known obfuscated method name); every literal outside such an invocation
context — e.g. a log-message argument of any other call — is left
unchanged by the string-literal handler. -/
theorem string_literal_edit_conditions :
    ∀ (D : Deobfuscator) (code : List Char) (parent gparent : Option ASTNode)
      (n : ASTNode) (edits : TextEdits),
      handle_string_literal D code parent gparent n edits ≠ edits →
      ∃ p gp, parent = some p ∧ gparent = some gp ∧
        p.kind = "argument_list" ∧ gp.kind = "method_invocation" ∧
        ∃ mn, gp.childByField "name" = some mn ∧
          ((nodeText code mn = "forName" ∧
            (∀ objN, gp.childByField "object" = some objN →
              nodeText code objN = "Class" ∨
              nodeText code objN = "java.lang.Class") ∧
            '.' ∈ (String.mk (((nodeText code n).data.drop 1).dropLast)).data ∧
            (D.class_map.lookup
              (String.mk (((nodeText code n).data.drop 1).dropLast))).isSome) ∨
          ((nodeText code mn = "getMethod" ∨
              nodeText code mn = "getDeclaredMethod") ∧
            (∃ first, (p.childrenRaw.filter
                (fun c => !(["(", ")", ","].contains c.2.kind))).head? =
                some first ∧ first.2.id = n.id) ∧
            (memberMapFindMethod D.member_map
              (String.mk (((nodeText code n).data.drop 1).dropLast))).isSome)) := by
  intro D code parent gparent n edits h
  unfold handle_string_literal at h
  dsimp only at h
  split at h
  · exact absurd rfl h
  · split at h
    · exact absurd rfl h
    · split at h
      case _ p gp =>
        split at h
        · exact absurd rfl h
        · rename_i hpk
          split at h
          · exact absurd rfl h
          · rename_i hgpk
            split at h
            · exact absurd rfl h
            · rename_i mn hmn
              refine ⟨p, gp, rfl, rfl, not_ne_iff.mp hpk, not_ne_iff.mp hgpk,
                mn, hmn, ?_⟩
              split at h
              · rename_i hfor
                split at h
                · exact absurd rfl h
                · rename_i hobj
                  split at h
                  · rename_i hdot
                    split at h
                    · rename_i nc hnc
                      refine Or.inl ⟨hfor, ?_, hdot, by rw [hnc]; rfl⟩
                      intro objN hobjN
                      rw [hobjN] at hobj
                      exact or_iff_not_imp_left.mpr (by simpa using hobj)
                    · exact absurd rfl h
                  · exact absurd rfl h
              · rename_i hnfor
                split at h
                · rename_i hget
                  split at h
                  · rename_i first hfirst
                    split at h
                    · exact absurd rfl h
                    · rename_i hid
                      split at h
                      · rename_i orig horig
                        exact Or.inr ⟨hget, ⟨first, hfirst, not_ne_iff.mp hid⟩,
                          by rw [horig]; rfl⟩
                      · exact absurd rfl h
                  · exact absurd rfl h
                · exact absurd rfl h
      case _ => exact absurd rfl h

/-- C5 (witness): the edit-condition theorem applied to the concrete
second-argument `forName` literal, whose handler call does produce an
edit. -/
theorem string_literal_edit_conditions_witness :
    ∃ p gp, (some c5args) = some p ∧ (some c5call) = some gp ∧
      p.kind = "argument_list" ∧ gp.kind = "method_invocation" ∧
      ∃ mn, gp.childByField "name" = some mn ∧
        ((nodeText c5code mn = "forName" ∧
          (∀ objN, gp.childByField "object" = some objN →
            nodeText c5code objN = "Class" ∨
            nodeText c5code objN = "java.lang.Class") ∧
          '.' ∈ (String.mk (((nodeText c5code c5lit2).data.drop 1).dropLast)).data ∧
          (c5D.class_map.lookup
            (String.mk (((nodeText c5code c5lit2).data.drop 1).dropLast))).isSome) ∨
        ((nodeText c5code mn = "getMethod" ∨
            nodeText c5code mn = "getDeclaredMethod") ∧
          (∃ first, (p.childrenRaw.filter
              (fun c => !(["(", ")", ","].contains c.2.kind))).head? =
              some first ∧ first.2.id = c5lit2.id) ∧
          (memberMapFindMethod c5D.member_map
            (String.mk (((nodeText c5code c5lit2).data.drop 1).dropLast))).isSome)) :=
  string_literal_edit_conditions c5D c5code (some c5args) (some c5call) c5lit2
    TextEdits.empty (by decide)

/-- A single bare type identifier, the parse tree of both `A` and `B`. -/
def c7tree : ASTNode := .node 0 "type_identifier" 0 1 []

/-- A chained class map: `p.A`'s original name `q.B` shares its short name
with the obfuscated class `p.B`. -/
def c7D : Deobfuscator := ⟨[("p.A", "q.B"), ("p.B", "r.C")], [], none⟩

theorem c7tree_ratio : get_error_ratio c7tree = 0 := by
  have hne : ¬("type_identifier" = "ERROR") := by decide
  norm_num [get_error_ratio, c7tree, countNodes, countNodesL, countErrors,
    countErrorsL, hne]

unseal List.merge List.mergeSort in
/-- C7 (counterexample): with the chained class map, the pass rewrites the
source `A` (tree `c7tree`) to `B`; running the pass a second time on that
output — whose parse is the same single-type-identifier tree over the text
`B` — rewrites it further to `C`, so the second output differs from the
first and the rewrite pass is not idempotent. -/
theorem rewrite_not_idempotent_counterexample :
    process c7D "A".data c7tree "p.A" = Except.ok "B" ∧
    process c7D "B".data c7tree "p.A" = Except.ok "C" := by
  constructor
  · unfold process
    rw [if_neg (by rw [c7tree_ratio]; norm_num)]
    rfl
  · unfold process
    rw [if_neg (by rw [c7tree_ratio]; norm_num)]
    rfl

/-- C7 (amended): idempotence holds only when no replacement name is itself
subject to renaming (non-chaining tables); for the handlers that replace
name tokens, a token whose renamed text no longer resolves produces no
further edit on a second pass: a type identifier whose text is not a
short-map key, a constructor name already equal to the class's original
short name, and a method name that no longer resolves are all left
unchanged. -/
theorem rename_stability :
    (∀ (D : Deobfuscator) (code : List Char) (parent : Option ASTNode)
      (n : ASTNode) (edits : TextEdits),
      short_class_map D.class_map (nodeText code n) = none →
      handle_type_identifier D code parent n edits = edits) ∧
    (∀ (D : Deobfuscator) (code : List Char) (cls : String) (n : ASTNode)
      (edits : TextEdits) (nameNode : ASTNode) (origFull : String),
      n.childByField "name" = some nameNode →
      D.class_map.lookup cls = some origFull →
      nodeText code nameNode = shortName origFull →
      shortName cls ≠ shortName origFull →
      handle_constructor_declaration D code cls n edits = edits) ∧
    (∀ (D : Deobfuscator) (code : List Char) (cls : String) (n : ASTNode)
      (vt : List (String × String)) (edits : TextEdits) (nameNode : ASTNode),
      n.childByField "name" = some nameNode →
      resolveMethodD D (match n.childByField "object" with
        | some objN => resolve_expression_type D code vt cls objN
        | none => some cls) (nodeText code nameNode) n = none →
      handle_method_invocation D code cls n vt edits = edits) := by
  refine ⟨?_, ?_, ?_⟩
  · intro D code parent n edits hmap
    unfold handle_type_identifier
    dsimp only
    split
    · rfl
    · rw [hmap]
  · intro D code cls n edits nameNode origFull hname hlk htext hne
    unfold handle_constructor_declaration
    rw [hname]
    dsimp only
    rw [hlk]
    dsimp only
    rw [if_neg]
    rintro ⟨h1, h2⟩
    rw [htext] at h1
    exact h2 h1
  · intro D code cls n vt edits nameNode hname hres
    unfold handle_method_invocation
    rw [hname]
    dsimp only
    rw [hres]

/-- The concrete nodes for the C7 witness. -/
def c7name : ASTNode := .node 1 "identifier" 0 1 []

def c7ctor : ASTNode := .node 2 "constructor_declaration" 0 1 [(some "name", c7name)]

def c7call : ASTNode := .node 3 "method_invocation" 0 1 [(some "name", c7name)]

def c7D2 : Deobfuscator := ⟨[("p.A", "q.B")], [], none⟩

/-- C7 (witness): the stability theorem at concrete renamed tokens — the
token `C` (no short-map key under the non-chaining map `c7D2`), the renamed
constructor name `B` of class `p.A -> q.B`, and a renamed method name that
no longer resolves, each produce no edit. -/
theorem rename_stability_witness :
    handle_type_identifier c7D2 "C".data none c7tree TextEdits.empty =
      TextEdits.empty ∧
    handle_constructor_declaration c7D2 "B".data "p.A" c7ctor TextEdits.empty =
      TextEdits.empty ∧
    handle_method_invocation c7D2 "B".data "p.A" c7call []
      TextEdits.empty = TextEdits.empty := by
  refine ⟨?_, ?_, ?_⟩
  · exact rename_stability.1 c7D2 "C".data none c7tree TextEdits.empty (by decide)
  · exact rename_stability.2.1 c7D2 "B".data "p.A" c7ctor TextEdits.empty c7name
      "q.B" rfl rfl rfl (by decide)
  · exact rename_stability.2.2 c7D2 "B".data "p.A" c7call [] TextEdits.empty
      c7name rfl rfl

end JavaDeobf
